import Mathlib

/-!
Verification of the exstack / exstack2 exchange engines of the bale repository.

The only engine code present in the sources is the header `exstack.h`: it carries the
`exstack_t` and `exstack2_t` data structures, the declarations of the public routines, and
the message-word macros `msg_pack` / `msg_cnt` / `msg_pe` / `msg_islast` (the macros are
full definitions, so they are embedded directly from the source).  The bodies of the public
routines are not part of the sources, so the two engines are modelled from the
specification, as marked on each definition below.

Machine integers: the message word is an `int64_t`.  It is embedded as `Int` together with
explicit two's complement conversions to and from 64-bit patterns (`Nat` below `2^64`);
overflow is taken to wrap, which is the usual behaviour and the one the specification
describes for out-of-range fields.
-/

/-! ### Message-word macros, embedded from `exstack.h` lines 122-128 -/

/-- Source: `MSG_cnt_shift` is 32 (the comment next to it claims "31 bits for the
requesting pe", which the layout does not match; see `msg_macros_truncate`). -/
def MSG_cnt_shift : Nat := 32

/-- Source: `MSG_pe_mask` is `0x00000000FFFFFFFF`. -/
def MSG_pe_mask : Int := 0xFFFFFFFF

/-- Two's complement 64-bit pattern of an integer, i.e. an `int64_t` object reinterpreted
as its unsigned bit pattern. -/
def toBits64 (x : Int) : Nat := (x % (2:Int) ^ 64).toNat

/-- Read a 64-bit pattern back as the signed `int64_t` value it represents. -/
def ofBits64 (n : Nat) : Int :=
  if n % 2 ^ 64 < 2 ^ 63 then ((n % 2 ^ 64 : Nat) : Int)
  else ((n % 2 ^ 64 : Nat) : Int) - (2:Int) ^ 64

/-- C `&` on `int64_t`. -/
def i64_and (a b : Int) : Int := ofBits64 (toBits64 a &&& toBits64 b)

/-- C `|` on `int64_t`. -/
def i64_or (a b : Int) : Int := ofBits64 (toBits64 a ||| toBits64 b)

/-- C `<<` on `int64_t`, wrapping on overflow. -/
def i64_shl (a : Int) (k : Nat) : Int := ofBits64 (toBits64 a <<< k)

/-- C `>>` on `int64_t`: arithmetic right shift, i.e. floor division of the signed value
by `2^k`. -/
def i64_sar (a : Int) (k : Nat) : Int := Int.fdiv (ofBits64 (toBits64 a)) ((2:Int) ^ k)

/-- Source macro: `msg_pack(cnt, islast)` is
`((cnt) << MSG_cnt_shift) | (MYTHREAD << 1) | ((islast) & 0x1)`.
`MYTHREAD` (the calling peer's id) is passed explicitly as the first argument. -/
def msg_pack (MYTHREAD cnt islast : Int) : Int :=
  i64_or (i64_or (i64_shl cnt MSG_cnt_shift) (i64_shl MYTHREAD 1)) (i64_and islast 1)

/-- Source macro: `msg_cnt(msg)` is `(msg) >> MSG_cnt_shift`. -/
def msg_cnt (msg : Int) : Int := i64_sar msg MSG_cnt_shift

/-- Source macro: `msg_pe(msg)` is `((msg) & MSG_pe_mask) >> 1`. -/
def msg_pe (msg : Int) : Int := i64_sar (i64_and msg MSG_pe_mask) 1

/-- Source macro: `msg_islast(msg)` is `(msg) & 0x1`. -/
def msg_islast (msg : Int) : Int := i64_and msg 1

/-! ### Arithmetic facts about the conversions -/

theorem ofBits64_of_lt {n : Nat} (h : n < 2 ^ 63) : ofBits64 n = (n : Int) := by
  have h64 : n % 2 ^ 64 = n := Nat.mod_eq_of_lt (lt_trans h (by norm_num))
  simp only [ofBits64, h64, if_pos h]

theorem toBits64_natCast {n : Nat} (h : n < 2 ^ 64) : toBits64 ((n : Nat) : Int) = n := by
  have hm : ((n : Nat) : Int) % (2:Int) ^ 64 = ((n : Nat) : Int) := by
    apply Int.emod_eq_of_lt (by positivity)
    exact_mod_cast h
  unfold toBits64
  rw [hm, Int.toNat_natCast]

theorem toBits64_of_nonneg {x : Int} (h0 : 0 ≤ x) (h : x < 2 ^ 63) :
    toBits64 x = x.toNat := by
  have hx : x % (2:Int) ^ 64 = x :=
    Int.emod_eq_of_lt h0 (by linarith [(by norm_num : (2:Int) ^ 63 < 2 ^ 64)])
  unfold toBits64
  rw [hx]

theorem toBits64_ofBits64 (n : Nat) : toBits64 (ofBits64 n) = n % 2 ^ 64 := by
  unfold ofBits64 toBits64
  by_cases h : n % 2 ^ 64 < 2 ^ 63
  · rw [if_pos h]
    have hm : ((n % 2 ^ 64 : Nat) : Int) % (2:Int) ^ 64 = ((n % 2 ^ 64 : Nat) : Int) := by
      apply Int.emod_eq_of_lt (by positivity)
      have : n % 2 ^ 64 < 2 ^ 64 := Nat.mod_lt _ (by norm_num)
      exact_mod_cast this
    rw [hm, Int.toNat_natCast]
  · rw [if_neg h]
    have hlt : n % 2 ^ 64 < 2 ^ 64 := Nat.mod_lt _ (by norm_num)
    have hm : (((n % 2 ^ 64 : Nat) : Int) - (2:Int) ^ 64) % (2:Int) ^ 64
        = ((n % 2 ^ 64 : Nat) : Int) := by
      have hrw : (((n % 2 ^ 64 : Nat) : Int) - (2:Int) ^ 64)
          = ((n % 2 ^ 64 : Nat) : Int) + (-1) * (2:Int) ^ 64 := by ring
      rw [hrw, Int.add_mul_emod_self]
      apply Int.emod_eq_of_lt (by positivity)
      exact_mod_cast hlt
    rw [hm, Int.toNat_natCast]

theorem i64_and_of_range {x y : Int} (hx0 : 0 ≤ x) (hx : x < 9223372036854775808)
    (hy0 : 0 ≤ y) (hy : y < 9223372036854775808) :
    i64_and x y = ((x.toNat &&& y.toNat : Nat) : Int) := by
  have hxn : x.toNat < 2 ^ 63 := by norm_num; omega
  have hyn : y.toNat < 2 ^ 63 := by norm_num; omega
  unfold i64_and
  rw [toBits64_of_nonneg hx0 (by norm_num; omega), toBits64_of_nonneg hy0 (by norm_num; omega)]
  exact ofBits64_of_lt (Nat.and_lt_two_pow _ hyn)

theorem i64_sar_of_range {x : Int} (h0 : 0 ≤ x) (h : x < 9223372036854775808) (k : Nat) :
    i64_sar x k = x / 2 ^ k := by
  unfold i64_sar
  rw [toBits64_of_nonneg h0 (by norm_num; omega),
    ofBits64_of_lt (by norm_num; omega), Int.toNat_of_nonneg h0,
    Int.fdiv_eq_ediv _ (by positivity)]

theorem i64_or_of_range {x y : Int} (hx0 : 0 ≤ x) (hx : x < 9223372036854775808)
    (hy0 : 0 ≤ y) (hy : y < 9223372036854775808) :
    i64_or x y = ((x.toNat ||| y.toNat : Nat) : Int) := by
  have hxn : x.toNat < 2 ^ 63 := by norm_num; omega
  have hyn : y.toNat < 2 ^ 63 := by norm_num; omega
  unfold i64_or
  rw [toBits64_of_nonneg hx0 (by norm_num; omega), toBits64_of_nonneg hy0 (by norm_num; omega)]
  exact ofBits64_of_lt (Nat.or_lt_two_pow hxn hyn)

theorem i64_shl_of_range {x : Int} (k : Nat) (h0 : 0 ≤ x)
    (h : x.toNat * 2 ^ k < 9223372036854775808) :
    i64_shl x k = ((x.toNat * 2 ^ k : Nat) : Int) := by
  have hx : x < 9223372036854775808 := by
    have h1 : x.toNat ≤ x.toNat * 2 ^ k := Nat.le_mul_of_pos_right _ (Nat.pos_pow_of_pos k (by norm_num))
    omega
  unfold i64_shl
  rw [toBits64_of_nonneg h0 (by norm_num; omega), Nat.shiftLeft_eq]
  exact ofBits64_of_lt (by norm_num; omega)

/-- Under in-range fields the packed word is exactly
`cnt * 2^32 + pe * 2 + islast`: the count sits in bits 63..32, the sender id in
bits 31..1 and the islast flag in bit 0. -/
theorem msg_pack_eq_of_bounds {cnt pe islast : Int}
    (hc0 : 0 ≤ cnt) (hc : cnt < 2147483648)
    (hp0 : 0 ≤ pe) (hp : pe < 2147483648)
    (hl : islast = 0 ∨ islast = 1) :
    msg_pack pe cnt islast = cnt * 4294967296 + pe * 2 + islast := by
  have hl0 : 0 ≤ islast := by rcases hl with h | h <;> simp [h]
  have hl2 : islast < 2 := by rcases hl with h | h <;> simp [h]
  have hA : i64_shl cnt 32 = ((cnt.toNat * 2 ^ 32 : Nat) : Int) :=
    i64_shl_of_range 32 hc0 (by norm_num; omega)
  have hB : i64_shl pe 1 = ((pe.toNat * 2 ^ 1 : Nat) : Int) :=
    i64_shl_of_range 1 hp0 (by norm_num; omega)
  have hC : i64_and islast 1 = ((islast.toNat &&& (1:Int).toNat : Nat) : Int) :=
    i64_and_of_range hl0 (by omega) (by norm_num) (by norm_num)
  have hCval : islast.toNat &&& (1:Int).toNat = islast.toNat := by
    have h1 : (1:Int).toNat = 1 := rfl
    rw [h1, Nat.and_one_is_mod, Nat.mod_eq_of_lt (by omega)]
  have hABor : cnt.toNat * 2 ^ 32 ||| pe.toNat * 2 ^ 1 = cnt.toNat * 2 ^ 32 + pe.toNat * 2 := by
    have h1 := Nat.mul_add_lt_is_or (i := 32) (b := pe.toNat * 2 ^ 1) (by norm_num; omega) cnt.toNat
    have h2 : 2 ^ 32 * cnt.toNat = cnt.toNat * 2 ^ 32 := Nat.mul_comm _ _
    rw [h2] at h1
    rw [← h1]
    norm_num
  have hxN : (cnt.toNat * 2 ^ 32 : Nat) < 9223372036854775808 := by norm_num; omega
  have hyN : (pe.toNat * 2 ^ 1 : Nat) < 9223372036854775808 := by norm_num; omega
  have hx0 : (0:Int) ≤ ((cnt.toNat * 2 ^ 32 : Nat) : Int) := Int.natCast_nonneg _
  have hx1 : ((cnt.toNat * 2 ^ 32 : Nat) : Int) < 9223372036854775808 := by exact_mod_cast hxN
  have hy0 : (0:Int) ≤ ((pe.toNat * 2 ^ 1 : Nat) : Int) := Int.natCast_nonneg _
  have hy1 : ((pe.toNat * 2 ^ 1 : Nat) : Int) < 9223372036854775808 := by exact_mod_cast hyN
  have hAB : i64_or (i64_shl cnt 32) (i64_shl pe 1)
      = ((cnt.toNat * 2 ^ 32 + pe.toNat * 2 : Nat) : Int) := by
    rw [hA, hB, i64_or_of_range hx0 hx1 hy0 hy1]
    rw [Int.toNat_natCast, Int.toNat_natCast, hABor]
  have hfull : (cnt.toNat * 2 ^ 32 + pe.toNat * 2) ||| islast.toNat
      = cnt.toNat * 2 ^ 32 + pe.toNat * 2 + islast.toNat := by
    have hsplit : cnt.toNat * 2 ^ 32 + pe.toNat * 2
        = 2 ^ 1 * (cnt.toNat * 2 ^ 31 + pe.toNat) := by ring
    have h1 := Nat.mul_add_lt_is_or (i := 1) (b := islast.toNat) (by norm_num; omega)
      (cnt.toNat * 2 ^ 31 + pe.toNat)
    rw [← hsplit] at h1
    omega
  have huN : (cnt.toNat * 2 ^ 32 + pe.toNat * 2 : Nat) < 9223372036854775808 := by
    norm_num; omega
  have hvN : (islast.toNat &&& (1:Int).toNat : Nat) < 9223372036854775808 := by
    rw [hCval]; omega
  have hu0 : (0:Int) ≤ ((cnt.toNat * 2 ^ 32 + pe.toNat * 2 : Nat) : Int) := Int.natCast_nonneg _
  have hu1 : ((cnt.toNat * 2 ^ 32 + pe.toNat * 2 : Nat) : Int) < 9223372036854775808 := by
    exact_mod_cast huN
  have hv0 : (0:Int) ≤ ((islast.toNat &&& (1:Int).toNat : Nat) : Int) := Int.natCast_nonneg _
  have hv1 : ((islast.toNat &&& (1:Int).toNat : Nat) : Int) < 9223372036854775808 := by
    exact_mod_cast hvN
  unfold msg_pack MSG_cnt_shift
  rw [hAB, hC, i64_or_of_range hu0 hu1 hv0 hv1]
  rw [Int.toNat_natCast, Int.toNat_natCast, hCval, hfull]
  push_cast
  omega

/-- Field extraction: within the documented ranges the three accessor macros recover the
packed fields. -/
theorem msg_fields_of_bounds {cnt pe islast : Int}
    (hc0 : 0 ≤ cnt) (hc : cnt < 2147483648)
    (hp0 : 0 ≤ pe) (hp : pe < 2147483648)
    (hl : islast = 0 ∨ islast = 1) :
    msg_cnt (msg_pack pe cnt islast) = cnt ∧
    msg_pe (msg_pack pe cnt islast) = pe ∧
    msg_islast (msg_pack pe cnt islast) = islast := by
  have hl0 : 0 ≤ islast := by rcases hl with h | h <;> simp [h]
  have hl2 : islast < 2 := by rcases hl with h | h <;> simp [h]
  have hpack := msg_pack_eq_of_bounds hc0 hc hp0 hp hl
  have hX0 : 0 ≤ cnt * 4294967296 + pe * 2 + islast := by omega
  have hX1 : cnt * 4294967296 + pe * 2 + islast < 9223372036854775808 := by omega
  refine ⟨?_, ?_, ?_⟩
  · unfold msg_cnt MSG_cnt_shift
    rw [hpack, i64_sar_of_range hX0 hX1]
    have h232 : ((2:Int) ^ 32) = 4294967296 := by norm_num
    rw [h232]
    omega
  · unfold msg_pe MSG_pe_mask
    rw [hpack, i64_and_of_range hX0 hX1 (by norm_num) (by norm_num)]
    have hmask : (4294967295:Int).toNat = 4294967295 := rfl
    rw [hmask]
    have hand : (cnt * 4294967296 + pe * 2 + islast).toNat &&& 4294967295
        = (cnt * 4294967296 + pe * 2 + islast).toNat % 4294967296 := by
      have h1 := Nat.and_pow_two_sub_one_eq_mod (cnt * 4294967296 + pe * 2 + islast).toNat 32
      norm_num at h1
      exact h1
    rw [hand]
    have hmod : (cnt * 4294967296 + pe * 2 + islast).toNat % 4294967296
        = pe.toNat * 2 + islast.toNat := by omega
    rw [hmod]
    have hs0 : (0:Int) ≤ ((pe.toNat * 2 + islast.toNat : Nat) : Int) := Int.natCast_nonneg _
    have hsN : (pe.toNat * 2 + islast.toNat : Nat) < 9223372036854775808 := by omega
    have hs1 : ((pe.toNat * 2 + islast.toNat : Nat) : Int) < 9223372036854775808 := by
      exact_mod_cast hsN
    rw [i64_sar_of_range hs0 hs1]
    have h21 : ((2:Int) ^ 1) = 2 := by norm_num
    rw [h21]
    push_cast
    omega
  · unfold msg_islast
    rw [hpack, i64_and_of_range hX0 hX1 (by norm_num) (by norm_num)]
    have hone : (1:Int).toNat = 1 := rfl
    rw [hone, Nat.and_one_is_mod]
    have hmod2 : (cnt * 4294967296 + pe * 2 + islast).toNat % 2 = islast.toNat := by omega
    rw [hmod2]
    omega

/-- C5.  For `cnt` in `[0, B]`, `pe = MYTHREAD` in `[0, P)` and `islast` in `{0,1}`
(with `B < 2^31` and `P ≤ 2^31`, the ranges in which the fields fit their bit slots),
the packed word `m = msg_pack(cnt, islast)` satisfies `msg_cnt(m) = cnt`,
`msg_pe(m) = pe` and `msg_islast(m) = islast`, and the layout is
`cnt` in bits 63..32, the sender id in bits 31..1 and `islast` in bit 0,
i.e. `m = cnt * 2^32 + pe * 2 + islast`. -/
theorem msg_pack_fields_roundtrip (B P cnt pe islast : Int)
    (hc0 : 0 ≤ cnt) (hcB : cnt ≤ B) (hB : B < 2 ^ 31)
    (hp0 : 0 ≤ pe) (hpP : pe < P) (hP : P ≤ 2 ^ 31)
    (hl : islast = 0 ∨ islast = 1) :
    msg_cnt (msg_pack pe cnt islast) = cnt ∧
    msg_pe (msg_pack pe cnt islast) = pe ∧
    msg_islast (msg_pack pe cnt islast) = islast ∧
    msg_pack pe cnt islast = cnt * 2 ^ 32 + pe * 2 + islast := by
  have hB' : B < 2147483648 := by norm_num at hB; exact hB
  have hP' : P ≤ 2147483648 := by norm_num at hP; exact hP
  have hc : cnt < 2147483648 := by omega
  have hp : pe < 2147483648 := by omega
  obtain ⟨h1, h2, h3⟩ := msg_fields_of_bounds hc0 hc hp0 hp hl
  refine ⟨h1, h2, h3, ?_⟩
  rw [msg_pack_eq_of_bounds hc0 hc hp0 hp hl]
  norm_num

/-- Witness for C5 at `B = 10`, `P = 4`, `cnt = 5`, `pe = 3`, `islast = 1`. -/
theorem msg_pack_fields_roundtrip_witness :
    msg_cnt (msg_pack 3 5 1) = 5 ∧
    msg_pe (msg_pack 3 5 1) = 3 ∧
    msg_islast (msg_pack 3 5 1) = 1 ∧
    msg_pack 3 5 1 = 5 * 2 ^ 32 + 3 * 2 + 1 :=
  msg_pack_fields_roundtrip 10 4 5 3 1 (by decide) (by decide) (by decide)
    (by decide) (by decide) (by decide) (Or.inr rfl)

theorem i64_and_one_eq (x : Int) : i64_and x 1 = ofBits64 (toBits64 x % 2) := by
  unfold i64_and
  have ht1 : toBits64 (1:Int) = 1 := by decide
  rw [ht1, Nat.and_one_is_mod]

theorem toBits64_parity_or (a b : Int) :
    toBits64 (i64_or a b) % 2 = 1 ↔ toBits64 a % 2 = 1 ∨ toBits64 b % 2 = 1 := by
  unfold i64_or
  rw [toBits64_ofBits64, Nat.mod_mod_of_dvd _ (by norm_num), Nat.or_mod_two_eq_one]

theorem toBits64_shl_even (a : Int) {k : Nat} (hk : 0 < k) :
    toBits64 (i64_shl a k) % 2 = 0 := by
  unfold i64_shl
  rw [toBits64_ofBits64, Nat.mod_mod_of_dvd _ (by norm_num), Nat.shiftLeft_eq]
  rcases Nat.exists_eq_succ_of_ne_zero (Nat.pos_iff_ne_zero.mp hk) with ⟨j, hj⟩
  subst hj
  have h1 : toBits64 a * 2 ^ (j + 1) = 2 * (toBits64 a * 2 ^ j) := by ring
  rw [h1, Nat.mul_mod_right]

/-- For arbitrary (even out-of-range) arguments, bit 0 of the packed word is
`islast & 1`. -/
theorem msg_islast_pack_all (cnt pe islast : Int) :
    msg_islast (msg_pack pe cnt islast) = i64_and islast 1 := by
  unfold msg_islast
  rw [i64_and_one_eq (msg_pack pe cnt islast), i64_and_one_eq islast]
  have hpar : toBits64 (msg_pack pe cnt islast) % 2 = toBits64 islast % 2 := by
    unfold msg_pack MSG_cnt_shift
    have h1 : toBits64 (i64_or (i64_shl cnt 32) (i64_shl pe 1)) % 2 = 0 := by
      have hc := toBits64_shl_even cnt (k := 32) (by norm_num)
      have hp := toBits64_shl_even pe (k := 1) (by norm_num)
      have hiff := toBits64_parity_or (i64_shl cnt 32) (i64_shl pe 1)
      omega
    have h2 : toBits64 (i64_and islast 1) % 2 = toBits64 islast % 2 := by
      rw [i64_and_one_eq islast, toBits64_ofBits64, Nat.mod_mod_of_dvd _ (by norm_num)]
      omega
    have hiff := toBits64_parity_or (i64_or (i64_shl cnt 32) (i64_shl pe 1)) (i64_and islast 1)
    omega
  rw [hpar]

set_option maxRecDepth 100000 in
/-- C10.  Outside the documented domain the macros truncate rather than fail: bit 0 of the
packed word is always `islast & 1` (any even `islast` packs as not-last); a sender id of
`2^31` is not recovered by `msg_pe` (its shifted value spills into the count field); a
count of `2^31` is not recovered by `msg_cnt` (as a signed 64-bit shift it lands in the
sign bit); and the distinct triples `(cnt, pe, islast) = (1, 0, 0)` and `(0, 2^31, 0)`
pack to the same word. -/
theorem msg_macros_truncate :
    (∀ cnt pe islast : Int, msg_islast (msg_pack pe cnt islast) = i64_and islast 1) ∧
    msg_pe (msg_pack (2 ^ 31) 0 0) ≠ 2 ^ 31 ∧
    msg_cnt (msg_pack 0 (2 ^ 31) 0) ≠ 2 ^ 31 ∧
    msg_pack 0 1 0 = msg_pack (2 ^ 31) 0 0 ∧
    ((1:Int), (0:Int), (0:Int)) ≠ ((0:Int), ((2:Int) ^ 31), (0:Int)) :=
  ⟨msg_islast_pack_all, by decide, by decide, by decide, by decide⟩

/-! ### Classic bulk exstack engine

The bodies of `exstack_init`, `exstack_push`, `exstack_exchange`, `exstack_pop`,
`exstack_unpop` and `exstack_proceed` are not among the sources (only their declarations
in `exstack.h` are), so the engine is modelled from the specification.  The model keeps
the global SPMD state of all `P` peers: each peer owns a row of send tiles and a row of
receive tiles (`buf_cnt` items of `pkg_size` bytes each; items are opaque, so a tile is a
`List Pkg` and the byte size plays no further role).  `first_ne_rcv` is described by the
spec as an advisory scan hint with no observable effect, so it is not part of the state;
`push_ptr` is the end of the staged list.  `lastRd` records the tile of the last
`pop`/`pull`, which is what `unpop`/`unpull` rewind. -/

/-- Update a two-argument function at one point. -/
def upd2 {P : Nat} {A : Type} (f : Fin P → Fin P → A) (a b : Fin P) (v : A) :
    Fin P → Fin P → A :=
  Function.update f a (Function.update (f a) b v)

theorem upd2_same {P : Nat} {A : Type} (f : Fin P → Fin P → A) (a b : Fin P) (v : A) :
    upd2 f a b v a b = v := by
  unfold upd2
  rw [Function.update_same, Function.update_same]

theorem upd2_ne {P : Nat} {A : Type} (f : Fin P → Fin P → A) (a b q e : Fin P) (v : A)
    (h : q ≠ a ∨ e ≠ b) : upd2 f a b v q e = f q e := by
  unfold upd2
  rcases h with h | h
  · rw [Function.update_noteq h]
  · by_cases hq : q = a
    · subst hq
      rw [Function.update_same, Function.update_noteq h]
    · rw [Function.update_noteq hq]

theorem upd2_upd2 {P : Nat} {A : Type} (f : Fin P → Fin P → A) (a b : Fin P) (v w : A) :
    upd2 (upd2 f a b v) a b w = upd2 f a b w := by
  unfold upd2
  rw [Function.update_idem, Function.update_same, Function.update_idem]

theorem upd2_self {P : Nat} {A : Type} (f : Fin P → Fin P → A) (a b : Fin P) :
    upd2 f a b (f a b) = f := by
  unfold upd2
  rw [Function.update_eq_self, Function.update_eq_self]

/-- Modelled from the spec: the SPMD-global state of the classic bulk engine
(`exstack_t` on every peer plus the shared `wait_done` array).
`snd_buf s d` holds the items peer `s` has staged for peer `d` (its length is
`push_cnt[d]`, the push cursor); `rcv_buf d s` is the receive tile of `d` for source `s`;
`fifo_ptr d s` is the pop cursor into that tile. -/
structure BulkSt (P : Nat) (Pkg : Type) where
  buf_cnt : Nat
  snd_buf : Fin P → Fin P → List Pkg
  rcv_buf : Fin P → Fin P → List Pkg
  fifo_ptr : Fin P → Fin P → Nat
  lastRd : Fin P → Option (Fin P)
  notify_done : Fin P → Bool
  wait_done : Fin P → Fin P → Bool
  deriving DecidableEq

/-- Modelled from the spec: `exstack_init(buf_cnt, pkg_size)` with item type `Pkg`:
empty tiles, zero cursors, cleared endgame flags. -/
def exstack_init (P B : Nat) (Pkg : Type) : BulkSt P Pkg :=
  { buf_cnt := B
    snd_buf := fun _ _ => []
    rcv_buf := fun _ _ => []
    fifo_ptr := fun _ _ => 0
    lastRd := fun _ => none
    notify_done := fun _ => false
    wait_done := fun _ _ => false }

/-- Modelled from the spec: `exstack_push(q, item, pe)` executed by peer `p` with
destination `d`: if `push_cnt[d] < buf_cnt`, append the item to send tile `[d]`
(the `pkg_size`-byte copy to `push_ptr`, cursor advanced by one) and return 1;
otherwise return 0 and change nothing.  Never blocks. -/
def exstack_push {P : Nat} {Pkg : Type} (st : BulkSt P Pkg) (p : Fin P) (item : Pkg)
    (d : Fin P) : BulkSt P Pkg × Int :=
  if (st.snd_buf p d).length < st.buf_cnt then
    ({ st with snd_buf := upd2 st.snd_buf p d (st.snd_buf p d ++ [item]) }, 1)
  else (st, 0)

/-- Modelled from the spec: the collective `exstack_exchange`: every peer ships its whole
send-tile row; afterwards `rcv_buf d s` holds what `s` staged for `d`, send tiles are
empty and pop cursors are reset. -/
def exstack_exchange {P : Nat} {Pkg : Type} (st : BulkSt P Pkg) : BulkSt P Pkg :=
  { st with
    snd_buf := fun _ _ => []
    rcv_buf := fun d s => st.snd_buf s d
    fifo_ptr := fun _ _ => 0
    lastRd := fun _ => none }

/-- Modelled from the spec: `exstack_pop(q, &item, &from_pe)` on peer `p`: walk the
receive tiles in increasing source index, return the next unread item and its source and
advance that tile's cursor; return nothing once all tiles are drained. -/
def exstack_pop {P : Nat} {Pkg : Type} (st : BulkSt P Pkg) (p : Fin P) :
    BulkSt P Pkg × Option (Pkg × Fin P) :=
  match (List.finRange P).find? (fun s => st.fifo_ptr p s < (st.rcv_buf p s).length) with
  | none => (st, none)
  | some s =>
    match (st.rcv_buf p s).get? (st.fifo_ptr p s) with
    | none => (st, none)
    | some item =>
      ({ st with
          fifo_ptr := upd2 st.fifo_ptr p s (st.fifo_ptr p s + 1)
          lastRd := Function.update st.lastRd p (some s) },
        some (item, s))

/-- Modelled from the spec: `exstack_unpop(q)` on peer `p`: one-level undo of the last
`pop`, rewinding that tile's cursor by one item. -/
def exstack_unpop {P : Nat} {Pkg : Type} (st : BulkSt P Pkg) (p : Fin P) : BulkSt P Pkg :=
  match st.lastRd p with
  | none => st
  | some s =>
    { st with
        fifo_ptr := upd2 st.fifo_ptr p s (st.fifo_ptr p s - 1)
        lastRd := Function.update st.lastRd p none }

/-- Modelled from the spec: `exstack_pull` is the no-copy variant of `exstack_pop`;
the returned pointer into the receive tile is modelled as the item value, so its state
behaviour is that of `exstack_pop`. -/
def exstack_pull {P : Nat} {Pkg : Type} (st : BulkSt P Pkg) (p : Fin P) :
    BulkSt P Pkg × Option (Pkg × Fin P) :=
  exstack_pop st p

/-- Modelled from the spec: `exstack_unpull`, the undo of `exstack_pull`; same cursor
rewind as `exstack_unpop`. -/
def exstack_unpull {P : Nat} {Pkg : Type} (st : BulkSt P Pkg) (p : Fin P) : BulkSt P Pkg :=
  exstack_unpop st p

/-- All receive tiles of peer `p` are drained (each pop cursor sits at its tile's end). -/
def rcvDrained {P : Nat} {Pkg : Type} (st : BulkSt P Pkg) (p : Fin P) : Bool :=
  (List.finRange P).all (fun s => st.fifo_ptr p s == (st.rcv_buf p s).length)

/-- Modelled from the spec: the announce half of `exstack_proceed` on peer `p`: if the
done condition holds and `notify_done` is still unset, write 1 into `wait_done[p]` on
every peer (one-sided puts) and set `notify_done`. -/
def exstack_announce {P : Nat} {Pkg : Type} (st : BulkSt P Pkg) (p : Fin P) (dc : Bool) :
    BulkSt P Pkg :=
  if dc && !(st.notify_done p) then
    { st with
        wait_done := fun k => Function.update (st.wait_done k) p true
        notify_done := Function.update st.notify_done p true }
  else st

/-- The return value of `exstack_proceed` as a function of the (post-announce) state:
0 iff every `wait_done` entry on this peer is set and every receive tile is drained. -/
def proceedRet {P : Nat} {Pkg : Type} (st : BulkSt P Pkg) (p : Fin P) : Int :=
  if ((List.finRange P).all fun k => st.wait_done p k) && rcvDrained st p then 0 else 1

/-- Modelled from the spec: `exstack_proceed(q, done_cond)` on peer `p`: announce if due,
then return 0 iff every `wait_done[k]` on this peer is 1 and every receive tile is empty,
else 1.  (The data movement that the spec attributes to the canonical caller loop is the
separate collective `exstack_exchange`.) -/
def exstack_proceed {P : Nat} {Pkg : Type} (st : BulkSt P Pkg) (p : Fin P) (dc : Bool) :
    BulkSt P Pkg × Int :=
  let st1 := exstack_announce st p dc
  (st1, proceedRet st1 p)

/-! ### Runs of the bulk engine

A run is a list of operations applied from the initial state.  The simulation state
carries, besides the engine state, the push and pop histories used to state the delivery
invariants: `pushedH s d` is the sequence of items peer `s` successfully pushed towards
`d` (in push order), `poppedH d s` the sequence of items peer `d` has consumed with
source `s` (pops net of unpops, since `unpop` returns the item to the tile). -/

/-- One application-level operation of a bulk run.  `proceed` is the collective step in
which every peer `q` calls `exstack_proceed` with its own done condition `dc q`. -/
inductive BulkOp (P : Nat) (Pkg : Type) where
  | push : Fin P → Pkg → Fin P → BulkOp P Pkg
  | pop : Fin P → BulkOp P Pkg
  | unpop : Fin P → BulkOp P Pkg
  | exchange : BulkOp P Pkg
  | proceed : (Fin P → Bool) → BulkOp P Pkg

/-- Engine state plus push/pop histories. -/
structure BulkSim (P : Nat) (Pkg : Type) where
  st : BulkSt P Pkg
  pushedH : Fin P → Fin P → List Pkg
  poppedH : Fin P → Fin P → List Pkg

/-- The collective announce phase: every peer runs the announce half of
`exstack_proceed`; the writes commute, so it is given directly. -/
def exstack_announce_all {P : Nat} {Pkg : Type} (st : BulkSt P Pkg) (dc : Fin P → Bool) :
    BulkSt P Pkg :=
  { st with
    wait_done := fun k q => st.wait_done k q || (dc q && !(st.notify_done q))
    notify_done := fun q => st.notify_done q || dc q }

/-- Execute one operation, maintaining the histories. -/
def execOp {P : Nat} {Pkg : Type} (sim : BulkSim P Pkg) : BulkOp P Pkg → BulkSim P Pkg
  | .push p item d =>
    let r := exstack_push sim.st p item d
    { st := r.1
      pushedH :=
        if r.2 = 1 then upd2 sim.pushedH p d (sim.pushedH p d ++ [item]) else sim.pushedH
      poppedH := sim.poppedH }
  | .pop p =>
    let r := exstack_pop sim.st p
    { st := r.1
      pushedH := sim.pushedH
      poppedH :=
        match r.2 with
        | some y => upd2 sim.poppedH p y.2 (sim.poppedH p y.2 ++ [y.1])
        | none => sim.poppedH }
  | .unpop p =>
    { st := exstack_unpop sim.st p
      pushedH := sim.pushedH
      poppedH :=
        match sim.st.lastRd p with
        | some s => upd2 sim.poppedH p s (sim.poppedH p s).dropLast
        | none => sim.poppedH }
  | .exchange =>
    { st := exstack_exchange sim.st, pushedH := sim.pushedH, poppedH := sim.poppedH }
  | .proceed dc =>
    { st := exstack_announce_all sim.st dc, pushedH := sim.pushedH, poppedH := sim.poppedH }

/-- The initial simulation state. -/
def initSim (P B : Nat) (Pkg : Type) : BulkSim P Pkg :=
  { st := exstack_init P B Pkg, pushedH := fun _ _ => [], poppedH := fun _ _ => [] }

/-- Run a list of operations. -/
def runOps {P : Nat} {Pkg : Type} (sim : BulkSim P Pkg) : List (BulkOp P Pkg) → BulkSim P Pkg
  | [] => sim
  | op :: ops => runOps (execOp sim op) ops

/-- Run a list of operations from the initial state. -/
def runBulk (P B : Nat) (Pkg : Type) (ops : List (BulkOp P Pkg)) : BulkSim P Pkg :=
  runOps (initSim P B Pkg) ops

/-- The caller discipline the spec's usage protocol imposes on a step:
an `exchange` only happens once every receive tile is drained (otherwise the one-sided
puts overwrite unread items); a peer pushes only while it has not announced being done;
a peer announcing done has nothing staged (its last pushes were already exchanged). -/
def okStep {P : Nat} {Pkg : Type} (sim : BulkSim P Pkg) : BulkOp P Pkg → Bool
  | .push p _ _ => !(sim.st.notify_done p)
  | .pop _ => true
  | .unpop _ => true
  | .exchange => (List.finRange P).all fun d => rcvDrained sim.st d
  | .proceed dc =>
    (List.finRange P).all fun q =>
      !(dc q && !(sim.st.notify_done q)) ||
        ((List.finRange P).all fun d => (sim.st.snd_buf q d).isEmpty)

/-- A run is well formed iff every step obeys `okStep` in the state it executes in. -/
def wfFrom {P : Nat} {Pkg : Type} (sim : BulkSim P Pkg) : List (BulkOp P Pkg) → Bool
  | [] => true
  | op :: ops => okStep sim op && wfFrom (execOp sim op) ops

/-- Total number of items pushed over the whole run. -/
def totalPushed {P : Nat} {Pkg : Type} (sim : BulkSim P Pkg) : Nat :=
  ∑ s : Fin P, ∑ d : Fin P, (sim.pushedH s d).length

/-- Total number of items popped (net) over the whole run. -/
def totalPopped {P : Nat} {Pkg : Type} (sim : BulkSim P Pkg) : Nat :=
  ∑ d : Fin P, ∑ s : Fin P, (sim.poppedH d s).length

/-! ### The delivery invariant -/

/-- Per ordered pair `(s, d)`: the consumed sequence is the pushed sequence minus the
unread part of the current receive tile and the staged send tile, for a common prefix
`old` of items delivered in earlier exchanges. -/
def pairInv {P : Nat} {Pkg : Type} (sim : BulkSim P Pkg) (s d : Fin P) : Prop :=
  ∃ old : List Pkg,
    sim.poppedH d s = old ++ (sim.st.rcv_buf d s).take (sim.st.fifo_ptr d s) ∧
    sim.pushedH s d = old ++ sim.st.rcv_buf d s ++ sim.st.snd_buf s d

/-- The run invariant of the bulk engine. -/
def simInv {P : Nat} {Pkg : Type} (sim : BulkSim P Pkg) : Prop :=
  (∀ s d, pairInv sim s d) ∧
  (∀ d s, sim.st.fifo_ptr d s ≤ (sim.st.rcv_buf d s).length) ∧
  (∀ p s, sim.st.lastRd p = some s → 0 < sim.st.fifo_ptr p s) ∧
  (∀ p, sim.st.notify_done p = true → ∀ d, sim.st.snd_buf p d = []) ∧
  (∀ p k, sim.st.wait_done p k = true → sim.st.notify_done k = true)

theorem simInv_initSim (P B : Nat) (Pkg : Type) : simInv (initSim P B Pkg) := by
  refine ⟨fun s d => ⟨[], by simp [initSim, exstack_init]⟩, ?_, ?_, ?_, ?_⟩ <;>
    simp [initSim, exstack_init]

theorem simInv_step {P : Nat} {Pkg : Type} (sim : BulkSim P Pkg) (op : BulkOp P Pkg)
    (hinv : simInv sim) (hok : okStep sim op = true) : simInv (execOp sim op) := by
  unfold simInv pairInv at hinv ⊢
  obtain ⟨hpair, hfif, hlr, hnd, hwd⟩ := hinv
  cases op with
  | push p item d =>
    by_cases hfull : (sim.st.snd_buf p d).length < sim.st.buf_cnt
    · simp only [execOp, exstack_push, if_pos hfull, reduceIte]
      refine ⟨?_, hfif, hlr, ?_, hwd⟩
      · intro s' d'
        by_cases hsd : s' = p ∧ d' = d
        · obtain ⟨rfl, rfl⟩ := hsd
          obtain ⟨old, hpo, hpu⟩ := hpair s' d'
          exact ⟨old, hpo, by rw [upd2_same, upd2_same, hpu]; simp⟩
        · rw [not_and_or] at hsd
          obtain ⟨old, hpo, hpu⟩ := hpair s' d'
          exact ⟨old, hpo, by rw [upd2_ne _ _ _ _ _ _ hsd, upd2_ne _ _ _ _ _ _ hsd, hpu]⟩
      · intro q hq d'
        simp only [okStep, Bool.not_eq_true'] at hok
        by_cases hqp : q = p
        · subst hqp
          rw [hok] at hq
          exact absurd hq (by simp)
        · rw [upd2_ne _ _ _ _ _ _ (Or.inl hqp)]
          exact hnd q hq d'
    · simp only [execOp, exstack_push, if_neg hfull, reduceIte]
      exact ⟨hpair, hfif, hlr, hnd, hwd⟩
  | pop p =>
    cases hfind : (List.finRange P).find?
        (fun s => sim.st.fifo_ptr p s < (sim.st.rcv_buf p s).length) with
    | none =>
      simp only [execOp, exstack_pop, hfind]
      exact ⟨hpair, hfif, hlr, hnd, hwd⟩
    | some s0 =>
      cases hget : (sim.st.rcv_buf p s0).get? (sim.st.fifo_ptr p s0) with
      | none =>
        simp only [execOp, exstack_pop, hfind, hget]
        exact ⟨hpair, hfif, hlr, hnd, hwd⟩
      | some item =>
        have hlt : sim.st.fifo_ptr p s0 < (sim.st.rcv_buf p s0).length := by
          have h1 := List.find?_some hfind
          simpa using h1
        simp only [execOp, exstack_pop, hfind, hget]
        refine ⟨?_, ?_, ?_, hnd, hwd⟩
        · intro s' d'
          by_cases hsd : d' = p ∧ s' = s0
          · obtain ⟨rfl, rfl⟩ := hsd
            obtain ⟨old, hpo, hpu⟩ := hpair s' d'
            refine ⟨old, ?_, hpu⟩
            rw [upd2_same, upd2_same, hpo]
            rw [List.take_succ, ← List.get?_eq_getElem?, hget]
            simp
          · rw [not_and_or] at hsd
            obtain ⟨old, hpo, hpu⟩ := hpair s' d'
            refine ⟨old, ?_, hpu⟩
            rw [upd2_ne _ _ _ _ _ _ hsd, upd2_ne _ _ _ _ _ _ hsd, hpo]
        · intro d' s'
          by_cases hsd : d' = p ∧ s' = s0
          · obtain ⟨rfl, rfl⟩ := hsd
            rw [upd2_same]
            omega
          · rw [not_and_or] at hsd
            rw [upd2_ne _ _ _ _ _ _ hsd]
            exact hfif d' s'
        · intro q s' hq
          by_cases hqp : q = p
          · subst hqp
            rw [Function.update_same] at hq
            cases hq
            rw [upd2_same]
            omega
          · rw [Function.update_noteq hqp] at hq
            rw [upd2_ne _ _ _ _ _ _ (Or.inl hqp)]
            exact hlr q s' hq
  | unpop p =>
    cases hmark : sim.st.lastRd p with
    | none =>
      simp only [execOp, exstack_unpop, hmark]
      exact ⟨hpair, hfif, hlr, hnd, hwd⟩
    | some s0 =>
      have hpos : 0 < sim.st.fifo_ptr p s0 := hlr p s0 hmark
      have hle : sim.st.fifo_ptr p s0 ≤ (sim.st.rcv_buf p s0).length := hfif p s0
      simp only [execOp, exstack_unpop, hmark]
      refine ⟨?_, ?_, ?_, hnd, hwd⟩
      · intro s' d'
        by_cases hsd : d' = p ∧ s' = s0
        · obtain ⟨rfl, rfl⟩ := hsd
          obtain ⟨old, hpo, hpu⟩ := hpair s' d'
          refine ⟨old, ?_, hpu⟩
          rw [upd2_same, upd2_same, hpo]
          obtain ⟨v, hv⟩ : ∃ v, sim.st.fifo_ptr d' s' = v + 1 :=
            ⟨sim.st.fifo_ptr d' s' - 1, by omega⟩
          rw [hv]
          have hvlt : v < (sim.st.rcv_buf d' s').length := by omega
          obtain ⟨x, hx⟩ : ∃ x, (sim.st.rcv_buf d' s').get? v = some x :=
            ⟨(sim.st.rcv_buf d' s').get ⟨v, hvlt⟩, List.get?_eq_some.mpr ⟨hvlt, rfl⟩⟩
          rw [List.take_succ, ← List.get?_eq_getElem?, hx]
          simp [← List.append_assoc]
        · rw [not_and_or] at hsd
          obtain ⟨old, hpo, hpu⟩ := hpair s' d'
          refine ⟨old, ?_, hpu⟩
          rw [upd2_ne _ _ _ _ _ _ hsd, upd2_ne _ _ _ _ _ _ hsd, hpo]
      · intro d' s'
        by_cases hsd : d' = p ∧ s' = s0
        · obtain ⟨rfl, rfl⟩ := hsd
          rw [upd2_same]
          omega
        · rw [not_and_or] at hsd
          rw [upd2_ne _ _ _ _ _ _ hsd]
          exact hfif d' s'
      · intro q s' hq
        by_cases hqp : q = p
        · subst hqp
          rw [Function.update_same] at hq
          cases hq
        · rw [Function.update_noteq hqp] at hq
          rw [upd2_ne _ _ _ _ _ _ (Or.inl hqp)]
          exact hlr q s' hq
  | exchange =>
    have hdr : ∀ d s : Fin P, sim.st.fifo_ptr d s = (sim.st.rcv_buf d s).length := by
      intro d s
      simp only [okStep, List.all_eq_true, rcvDrained] at hok
      have h1 := hok d (List.mem_finRange d) s (List.mem_finRange s)
      simpa using h1
    simp only [execOp, exstack_exchange]
    refine ⟨?_, by simp, by simp, ?_, hwd⟩
    · intro s' d'
      obtain ⟨old, hpo, hpu⟩ := hpair s' d'
      refine ⟨old ++ sim.st.rcv_buf d' s', ?_, ?_⟩
      · rw [hpo, hdr d' s', List.take_length]
        simp
      · rw [hpu]
        simp
    · intro q _ d'
      simp
  | proceed dc =>
    simp only [execOp, exstack_announce_all]
    refine ⟨hpair, hfif, hlr, ?_, ?_⟩
    · intro q hq d'
      rcases Bool.or_eq_true _ _ |>.mp hq with h | h
      · exact hnd q h d'
      · by_cases hnq : sim.st.notify_done q = true
        · exact hnd q hnq d'
        · simp only [okStep, List.all_eq_true] at hok
          have h2 := hok q (List.mem_finRange q)
          rw [Bool.not_eq_true] at hnq
          rw [h, hnq] at h2
          simp at h2
          exact h2 d'
    · intro q k hq
      rcases Bool.or_eq_true _ _ |>.mp hq with h | h
      · simp only [Bool.or_eq_true]
        exact Or.inl (hwd q k h)
      · simp only [Bool.or_eq_true]
        exact Or.inr (Bool.and_eq_true _ _ |>.mp h).1

theorem simInv_runOps {P : Nat} {Pkg : Type} :
    ∀ (ops : List (BulkOp P Pkg)) (sim : BulkSim P Pkg),
      simInv sim → wfFrom sim ops = true → simInv (runOps sim ops)
  | [], _, h, _ => h
  | op :: ops, sim, h, hwf => by
    rw [wfFrom, Bool.and_eq_true] at hwf
    rw [runOps]
    exact simInv_runOps ops (execOp sim op) (simInv_step sim op h hwf.1) hwf.2

theorem simInv_runBulk {P B : Nat} {Pkg : Type} (ops : List (BulkOp P Pkg))
    (hwf : wfFrom (initSim P B Pkg) ops = true) : simInv (runBulk P B Pkg ops) :=
  simInv_runOps ops (initSim P B Pkg) (simInv_initSim P B Pkg) hwf

/-- C1.  In every well-formed run (exchanges only happen with the receive tiles drained,
peers push only before announcing done, and a peer announcing done has nothing staged),
for every ordered pair `(s, d)` the sequence of items that `d` has consumed with source
`s` is a prefix, in push order, of the sequence of items `s` pushed towards `d`:
per-source FIFO delivery.  (In the model each exchange ships exactly the staged
contiguous prefix of unshipped items, and `exstack_pop` drains each inbound tile from
cursor position 0, which is how the invariant is maintained.) -/
theorem exstack_fifo_prefix (P B : Nat) (Pkg : Type) (ops : List (BulkOp P Pkg))
    (hwf : wfFrom (initSim P B Pkg) ops = true) (s d : Fin P) :
    (runBulk P B Pkg ops).poppedH d s <+: (runBulk P B Pkg ops).pushedH s d := by
  obtain ⟨hpair, hfif, _, _, _⟩ := simInv_runBulk ops hwf
  have h := hpair s d
  unfold pairInv at h
  obtain ⟨old, hpo, hpu⟩ := h
  refine ⟨((runBulk P B Pkg ops).st.rcv_buf d s).drop ((runBulk P B Pkg ops).st.fifo_ptr d s)
    ++ (runBulk P B Pkg ops).st.snd_buf s d, ?_⟩
  rw [hpo, hpu]
  rw [List.append_assoc, List.append_assoc, ← List.append_assoc (List.take _ _),
    List.take_append_drop]

/-- Witness for C1: a run on `P = 2`, `B = 2` that pushes two items `3, 4` from peer 0 to
peer 1, exchanges, and pops one of them. -/
theorem exstack_fifo_prefix_witness :
    wfFrom (initSim 2 2 Nat)
        [BulkOp.push 0 3 1, BulkOp.push 0 4 1, BulkOp.exchange, BulkOp.pop 1] = true ∧
      (runBulk 2 2 Nat
          [BulkOp.push 0 3 1, BulkOp.push 0 4 1, BulkOp.exchange, BulkOp.pop 1]).poppedH 1 0 <+:
        (runBulk 2 2 Nat
          [BulkOp.push 0 3 1, BulkOp.push 0 4 1, BulkOp.exchange, BulkOp.pop 1]).pushedH 0 1 :=
  ⟨by decide, exstack_fifo_prefix 2 2 Nat _ (by decide) 0 1⟩

/-- C2.  In a well-formed run after whose final `proceed` every peer got return value 0
(equivalently, `proceedRet` is 0 for every peer in the final state — `proceed` is the
last state change, so this is the value the final `proceed` returned), the total number
of items popped equals the total number of items pushed: every pushed item was delivered
exactly once. -/
theorem exstack_total_delivery (P B : Nat) (Pkg : Type) (ops : List (BulkOp P Pkg))
    (hwf : wfFrom (initSim P B Pkg) ops = true)
    (hdone : ∀ p : Fin P, proceedRet (runBulk P B Pkg ops).st p = 0) :
    totalPopped (runBulk P B Pkg ops) = totalPushed (runBulk P B Pkg ops) := by
  obtain ⟨hpair, hfif, _, hnd, hwd⟩ := simInv_runBulk ops hwf
  have hflags : ∀ p : Fin P,
      (∀ k, (runBulk P B Pkg ops).st.wait_done p k = true) ∧
        rcvDrained (runBulk P B Pkg ops).st p = true := by
    intro p
    have h := hdone p
    unfold proceedRet at h
    by_cases hc : (((List.finRange P).all fun k => (runBulk P B Pkg ops).st.wait_done p k)
        && rcvDrained (runBulk P B Pkg ops).st p) = true
    · rw [Bool.and_eq_true, List.all_eq_true] at hc
      exact ⟨fun k => hc.1 k (List.mem_finRange k), hc.2⟩
    · rw [if_neg hc] at h
      exact absurd h (by norm_num)
  have hpairEq : ∀ s d : Fin P,
      (runBulk P B Pkg ops).poppedH d s = (runBulk P B Pkg ops).pushedH s d := by
    intro s d
    have h := hpair s d
    unfold pairInv at h
    obtain ⟨old, hpo, hpu⟩ := h
    have hsnd : (runBulk P B Pkg ops).st.snd_buf s d = [] := by
      apply hnd s _ d
      exact hwd d s ((hflags d).1 s)
    have hdr : (runBulk P B Pkg ops).st.fifo_ptr d s
        = ((runBulk P B Pkg ops).st.rcv_buf d s).length := by
      have h2 := (hflags d).2
      unfold rcvDrained at h2
      rw [List.all_eq_true] at h2
      simpa using h2 s (List.mem_finRange s)
    rw [hpo, hpu, hsnd, hdr, List.take_length]
    simp
  unfold totalPopped totalPushed
  rw [Finset.sum_comm]
  apply Finset.sum_congr rfl
  intro s _
  apply Finset.sum_congr rfl
  intro d _
  rw [hpairEq s d]

/-- Witness for C2: the run of the C1 witness continued so that peer 1 drains both items
and every peer announces done. -/
theorem exstack_total_delivery_witness :
    (wfFrom (initSim 2 2 Nat)
        [BulkOp.push 0 3 1, BulkOp.push 0 4 1, BulkOp.exchange, BulkOp.pop 1, BulkOp.pop 1,
          BulkOp.proceed fun _ => true] = true ∧
      ∀ p : Fin 2, proceedRet (runBulk 2 2 Nat
        [BulkOp.push 0 3 1, BulkOp.push 0 4 1, BulkOp.exchange, BulkOp.pop 1, BulkOp.pop 1,
          BulkOp.proceed fun _ => true]).st p = 0) ∧
      totalPopped (runBulk 2 2 Nat
        [BulkOp.push 0 3 1, BulkOp.push 0 4 1, BulkOp.exchange, BulkOp.pop 1, BulkOp.pop 1,
          BulkOp.proceed fun _ => true])
        = totalPushed (runBulk 2 2 Nat
        [BulkOp.push 0 3 1, BulkOp.push 0 4 1, BulkOp.exchange, BulkOp.pop 1, BulkOp.pop 1,
          BulkOp.proceed fun _ => true]) :=
  ⟨⟨by decide, by decide⟩,
    exstack_total_delivery 2 2 Nat _ (by decide) (by decide)⟩

/-- Send-cursor soundness: every staged tile holds at most `buf_cnt` items. -/
def sndOk {P : Nat} {Pkg : Type} (st : BulkSt P Pkg) : Prop :=
  ∀ q e : Fin P, (st.snd_buf q e).length ≤ st.buf_cnt

theorem bufCnt_step {P : Nat} {Pkg : Type} (sim : BulkSim P Pkg) (op : BulkOp P Pkg) :
    (execOp sim op).st.buf_cnt = sim.st.buf_cnt := by
  cases op with
  | push p item d =>
    by_cases hfull : (sim.st.snd_buf p d).length < sim.st.buf_cnt
    · simp only [execOp, exstack_push, if_pos hfull, reduceIte]
    · simp only [execOp, exstack_push, if_neg hfull, reduceIte]
  | pop p =>
    cases hfind : (List.finRange P).find?
        (fun s => sim.st.fifo_ptr p s < (sim.st.rcv_buf p s).length) with
    | none => simp only [execOp, exstack_pop, hfind]
    | some s0 =>
      cases hget : (sim.st.rcv_buf p s0).get? (sim.st.fifo_ptr p s0) with
      | none => simp only [execOp, exstack_pop, hfind, hget]
      | some item => simp only [execOp, exstack_pop, hfind, hget]
  | unpop p =>
    cases hmark : sim.st.lastRd p with
    | none => simp only [execOp, exstack_unpop, hmark]
    | some s0 => simp only [execOp, exstack_unpop, hmark]
  | exchange => simp only [execOp, exstack_exchange]
  | proceed dc => simp only [execOp, exstack_announce_all]

theorem sndOk_step {P : Nat} {Pkg : Type} (sim : BulkSim P Pkg) (op : BulkOp P Pkg)
    (h : sndOk sim.st) : sndOk (execOp sim op).st := by
  cases op with
  | push p item d =>
    by_cases hfull : (sim.st.snd_buf p d).length < sim.st.buf_cnt
    · simp only [execOp, exstack_push, if_pos hfull, reduceIte]
      intro q e
      dsimp only
      by_cases hqe : q = p ∧ e = d
      · obtain ⟨rfl, rfl⟩ := hqe
        rw [upd2_same]
        simp only [List.length_append, List.length_singleton]
        omega
      · rw [not_and_or] at hqe
        rw [upd2_ne _ _ _ _ _ _ hqe]
        exact h q e
    · simp only [execOp, exstack_push, if_neg hfull, reduceIte]
      exact h
  | pop p =>
    cases hfind : (List.finRange P).find?
        (fun s => sim.st.fifo_ptr p s < (sim.st.rcv_buf p s).length) with
    | none => simp only [execOp, exstack_pop, hfind]; exact h
    | some s0 =>
      cases hget : (sim.st.rcv_buf p s0).get? (sim.st.fifo_ptr p s0) with
      | none => simp only [execOp, exstack_pop, hfind, hget]; exact h
      | some item => simp only [execOp, exstack_pop, hfind, hget]; exact h
  | unpop p =>
    cases hmark : sim.st.lastRd p with
    | none => simp only [execOp, exstack_unpop, hmark]; exact h
    | some s0 => simp only [execOp, exstack_unpop, hmark]; exact h
  | exchange =>
    simp only [execOp, exstack_exchange]
    intro q e
    simp
  | proceed dc =>
    simp only [execOp, exstack_announce_all]
    exact h

theorem sndOk_runOps {P : Nat} {Pkg : Type} :
    ∀ (ops : List (BulkOp P Pkg)) (sim : BulkSim P Pkg) (B : Nat),
      sndOk sim.st → sim.st.buf_cnt = B →
      sndOk (runOps sim ops).st ∧ (runOps sim ops).st.buf_cnt = B
  | [], _, _, h, hb => ⟨h, hb⟩
  | op :: ops, sim, B, h, hb => by
    rw [runOps]
    exact sndOk_runOps ops (execOp sim op) B (sndOk_step sim op h)
      ((bufCnt_step sim op).trans hb)

/-- C3.  `exstack_push`: when the tile has room (`push_cnt[dst] < B`) the item is
appended to send tile `[dst]` (the cursor advances by one), nothing else changes and the
call returns 1; when the tile is full (`push_cnt[dst] = B`) it returns 0 and leaves the
engine unchanged.  The function is total, so it never blocks.  Moreover after every
sequence of engine operations every send cursor satisfies `push_cnt[d] ≤ B`
(`0 ≤ push_cnt[d]` holds because the cursor is a length). -/
theorem exstack_push_spec (P B : Nat) (Pkg : Type) (st : BulkSt P Pkg) (p d : Fin P)
    (item : Pkg) :
    ((st.snd_buf p d).length < st.buf_cnt →
      (exstack_push st p item d).2 = 1 ∧
      (exstack_push st p item d).1.snd_buf p d = st.snd_buf p d ++ [item] ∧
      (∀ q e : Fin P, ¬(q = p ∧ e = d) →
        (exstack_push st p item d).1.snd_buf q e = st.snd_buf q e) ∧
      (exstack_push st p item d).1.rcv_buf = st.rcv_buf ∧
      (exstack_push st p item d).1.fifo_ptr = st.fifo_ptr ∧
      (exstack_push st p item d).1.lastRd = st.lastRd ∧
      (exstack_push st p item d).1.notify_done = st.notify_done ∧
      (exstack_push st p item d).1.wait_done = st.wait_done ∧
      (exstack_push st p item d).1.buf_cnt = st.buf_cnt) ∧
    ((st.snd_buf p d).length = st.buf_cnt → exstack_push st p item d = (st, 0)) ∧
    (∀ ops : List (BulkOp P Pkg), ∀ q e : Fin P,
      ((runBulk P B Pkg ops).st.snd_buf q e).length ≤ B) := by
  refine ⟨?_, ?_, ?_⟩
  · intro hroom
    simp only [exstack_push, if_pos hroom]
    refine ⟨by trivial, upd2_same _ _ _ _, ?_, by trivial, by trivial, by trivial,
      by trivial, by trivial, by trivial⟩
    intro q e hqe
    rw [not_and_or] at hqe
    exact upd2_ne _ _ _ _ _ _ hqe
  · intro hfull
    simp only [exstack_push, if_neg (by omega : ¬(st.snd_buf p d).length < st.buf_cnt)]
  · intro ops q e
    obtain ⟨h1, h2⟩ := sndOk_runOps ops (initSim P B Pkg) B
      (fun _ _ => by simp [initSim, exstack_init]) rfl
    have h3 := h1 q e
    unfold runBulk
    omega

/-- Witness for C3 at `P = 2`, `B = 1`: a push into an empty tile succeeds and fills it,
a push into the full tile returns 0 unchanged, and a run keeps the cursor at most `B`. -/
theorem exstack_push_spec_witness :
    ((exstack_push (exstack_init 2 1 Nat) 0 7 1).2 = 1 ∧
      (exstack_push (exstack_init 2 1 Nat) 0 7 1).1.snd_buf 0 1 = [7]) ∧
    (exstack_push (exstack_push (exstack_init 2 1 Nat) 0 7 1).1 0 8 1
      = ((exstack_push (exstack_init 2 1 Nat) 0 7 1).1, 0)) ∧
    ((runBulk 2 1 Nat [BulkOp.push 0 7 1, BulkOp.push 0 8 1]).st.snd_buf 0 1).length ≤ 1 := by
  have h1 := (exstack_push_spec 2 1 Nat (exstack_init 2 1 Nat) 0 1 7).1 (by decide)
  have h2 := (exstack_push_spec 2 1 Nat
    (exstack_push (exstack_init 2 1 Nat) 0 7 1).1 0 1 8).2.1 (by decide)
  have h3 := (exstack_push_spec 2 1 Nat (exstack_init 2 1 Nat) 0 1 7).2.2
    [BulkOp.push 0 7 1, BulkOp.push 0 8 1] 0 1
  exact ⟨⟨h1.1, by rw [h1.2.1]; decide⟩, h2, h3⟩

theorem proceedRet_iff {P : Nat} {Pkg : Type} (st2 : BulkSt P Pkg) (p : Fin P) :
    proceedRet st2 p = 0 ↔
      (∀ k : Fin P, st2.wait_done p k = true) ∧
      (∀ s : Fin P, st2.fifo_ptr p s = (st2.rcv_buf p s).length) := by
  unfold proceedRet rcvDrained
  by_cases hc : (((List.finRange P).all fun k => st2.wait_done p k)
      && (List.finRange P).all fun s => st2.fifo_ptr p s == (st2.rcv_buf p s).length) = true
  · rw [if_pos hc]
    rw [Bool.and_eq_true, List.all_eq_true, List.all_eq_true] at hc
    constructor
    · intro _
      refine ⟨fun k => hc.1 k (List.mem_finRange k), fun s => ?_⟩
      have h1 := hc.2 s (List.mem_finRange s)
      simpa using h1
    · intro _
      rfl
  · rw [if_neg hc]
    constructor
    · intro h
      exact absurd h (by norm_num)
    · intro h
      exfalso
      apply hc
      rw [Bool.and_eq_true, List.all_eq_true, List.all_eq_true]
      refine ⟨fun k _ => h.1 k, fun s _ => by simp [h.2 s]⟩

/-- C4.  `exstack_proceed(q, done_cond)` on peer `p` returns 0 iff every `wait_done`
entry on this peer is 1 and every receive tile of this peer is drained; otherwise it
returns 1.  If `done_cond` holds and `notify_done` is still unset it writes 1 into
`wait_done[p]` on every peer and sets `notify_done`; once `notify_done` is set a further
`proceed` changes nothing, so the announcement happens at most once per peer. -/
theorem exstack_proceed_spec (P : Nat) (Pkg : Type) (st : BulkSt P Pkg) (p : Fin P)
    (dc : Bool) :
    ((exstack_proceed st p dc).2 = 0 ↔
      (∀ k : Fin P, (exstack_proceed st p dc).1.wait_done p k = true) ∧
      (∀ s : Fin P, (exstack_proceed st p dc).1.fifo_ptr p s
        = ((exstack_proceed st p dc).1.rcv_buf p s).length)) ∧
    (dc = true → st.notify_done p = false →
      (∀ k : Fin P, (exstack_proceed st p dc).1.wait_done k p = true) ∧
      (exstack_proceed st p dc).1.notify_done p = true) ∧
    (st.notify_done p = true → (exstack_proceed st p dc).1 = st) := by
  have hfst : (exstack_proceed st p dc).1 = exstack_announce st p dc := rfl
  have hsnd : (exstack_proceed st p dc).2 = proceedRet (exstack_announce st p dc) p := rfl
  refine ⟨?_, ?_, ?_⟩
  · rw [hfst, hsnd]
    exact proceedRet_iff (exstack_announce st p dc) p
  · intro hdc hnd
    rw [hfst]
    unfold exstack_announce
    rw [hdc, hnd]
    simp only [Bool.not_false, Bool.and_self, if_pos]
    constructor
    · intro k
      rw [Function.update_same]
    · rw [Function.update_same]
  · intro hnd
    rw [hfst]
    unfold exstack_announce
    rw [hnd]
    simp

/-- Witness for C4 at `P = 2`: the first `proceed` with a true done condition announces
on both peers, and a second `proceed` on the already-notified peer changes nothing. -/
theorem exstack_proceed_spec_witness :
    ((exstack_proceed (exstack_init 2 2 Nat) 0 true).1.wait_done 1 0 = true ∧
      (exstack_proceed (exstack_init 2 2 Nat) 0 true).1.notify_done 0 = true) ∧
    (exstack_proceed ((exstack_proceed (exstack_init 2 2 Nat) 0 true).1) 0 false).1
      = (exstack_proceed (exstack_init 2 2 Nat) 0 true).1 :=
  ⟨⟨((exstack_proceed_spec 2 Nat (exstack_init 2 2 Nat) 0 true).2.1 rfl rfl).1 1,
    ((exstack_proceed_spec 2 Nat (exstack_init 2 2 Nat) 0 true).2.1 rfl rfl).2⟩,
    (exstack_proceed_spec 2 Nat ((exstack_proceed (exstack_init 2 2 Nat) 0 true).1)
      0 false).2.2 (by decide)⟩

theorem exstack_pop_unpop_of_pop {P : Nat} {Pkg : Type} {st st1 : BulkSt P Pkg}
    {p s : Fin P} {item : Pkg} (hmark : st.lastRd p = none)
    (hpop : exstack_pop st p = (st1, some (item, s))) :
    exstack_unpop st1 p = st := by
  unfold exstack_pop at hpop
  cases hfind : (List.finRange P).find?
      (fun s' => st.fifo_ptr p s' < (st.rcv_buf p s').length) with
  | none =>
    rw [hfind] at hpop
    simp at hpop
  | some s0 =>
    rw [hfind] at hpop
    dsimp only at hpop
    cases hget : (st.rcv_buf p s0).get? (st.fifo_ptr p s0) with
    | none =>
      rw [hget] at hpop
      simp at hpop
    | some it0 =>
      rw [hget] at hpop
      injection hpop with h1 h2
      injection h2 with h3
      injection h3 with h4 h5
      subst h5
      subst h4
      subst h1
      unfold exstack_unpop
      simp only [Function.update_same]
      rw [upd2_same, Nat.add_sub_cancel, upd2_upd2, upd2_self, Function.update_idem]
      rw [← hmark, Function.update_eq_self]

/-- C9.  Round-trip laws: a successful `pop` immediately followed by `unpop` restores the
engine state exactly (from a state with no pending one-level undo, i.e. `lastRd p = none`,
which is the discipline under which the one-level `unpop` is meaningful); the same holds
for `pull` followed by `unpull`; and pop-then-unpop-then-pop returns the same item and
the same source peer (indeed the very same state and result). -/
theorem exstack_roundtrip (P : Nat) (Pkg : Type) (st st1 : BulkSt P Pkg) (p s : Fin P)
    (item : Pkg) (hmark : st.lastRd p = none) :
    (exstack_pop st p = (st1, some (item, s)) →
      exstack_unpop st1 p = st ∧
      exstack_pop (exstack_unpop st1 p) p = (st1, some (item, s))) ∧
    (exstack_pull st p = (st1, some (item, s)) →
      exstack_unpull st1 p = st ∧
      exstack_pull (exstack_unpull st1 p) p = (st1, some (item, s))) := by
  constructor
  · intro hpop
    have hrt := exstack_pop_unpop_of_pop hmark hpop
    exact ⟨hrt, by rw [hrt]; exact hpop⟩
  · intro hpull
    have hpop : exstack_pop st p = (st1, some (item, s)) := hpull
    have hrt := exstack_pop_unpop_of_pop hmark hpop
    refine ⟨hrt, ?_⟩
    unfold exstack_pull exstack_unpull
    rw [hrt]
    exact hpop

/-- Witness for C9: on `P = 1`, `B = 1` with one delivered item, pop then unpop restores
the state and a re-pop yields the same item and source. -/
theorem exstack_roundtrip_witness :
    (exstack_pop (exstack_exchange (exstack_push (exstack_init 1 1 Nat) 0 9 0).1) 0
        = ((exstack_pop (exstack_exchange
            (exstack_push (exstack_init 1 1 Nat) 0 9 0).1) 0).1, some (9, 0))) ∧
    exstack_unpop (exstack_pop (exstack_exchange
        (exstack_push (exstack_init 1 1 Nat) 0 9 0).1) 0).1 0
      = exstack_exchange (exstack_push (exstack_init 1 1 Nat) 0 9 0).1 :=
  ⟨by decide,
    ((exstack_roundtrip 1 Nat
        (exstack_exchange (exstack_push (exstack_init 1 1 Nat) 0 9 0).1)
        (exstack_pop (exstack_exchange (exstack_push (exstack_init 1 1 Nat) 0 9 0).1) 0).1
        0 0 9 (by decide)).1 (by decide)).1⟩

/-! ### Asynchronous exstack2 engine

The bodies of the `exstack2_*` routines are likewise absent from the sources, so the
engine is modelled from the specification as a labelled transition system whose atomic
steps are the engine's operations.  The per-pair protocol follows the spec's state
machine IDLE/QUEUED/DRAINING; QUEUED is split into `inRing` (ring message written, not
yet observed by the receiver) and `queuedUp` (observed and appended to the
active-buffer queue), which is the distinction `num_popped` tracks.  The model's ring
stores structured messages; the implementation packs them into an `int64_t` with
`msg_pack`, whose layout is verified separately.  The receiver steps are allowed on any
pair in the right phase, a superset of the implementation's FIFO ring order, so the
safety invariants proved below hold for the implementation order as well. -/

/-- The spec's per-pair protocol state. -/
inductive PairPhase where
  | idle : PairPhase
  | inRing : PairPhase
  | queuedUp : PairPhase
  | draining : PairPhase
  deriving DecidableEq

/-- A ring message in structured form: the shipped item count, the sender and the
islast flag (packed by `msg_pack` in the implementation). -/
structure MsgT (P : Nat) where
  cnt : Nat
  pe : Fin P
  islast : Bool
  deriving DecidableEq

/-- The ring length fixed at init: the smallest power of two at least `2 * P`. -/
def ringSize (P : Nat) : Nat := 2 ^ Nat.clog 2 (2 * P)

/-- Modelled from the spec: the SPMD-global state of the exstack2 engine
(`exstack2_t` on every peer).  `can_send p d` is peer `p`'s credit bit for shipping to
`d` (written 0 by the sender at ship time, written back to 1 remotely by the receiver
after draining); `msg_queue`/`num_msgs`/`num_popped` are each peer's message ring with
its fetch-and-add head and local tail; `activeQ`/`current`/`popIdx` are the
active-buffer queue, the pe currently popped (`pop_pe`) and the pop cursor;
`phase s d` is the spec's per-pair state machine. -/
structure X2St (P : Nat) (Pkg : Type) where
  buf_cnt : Nat
  ringSz : Nat
  snd_buffer : Fin P → Fin P → List Pkg
  rcv_buffer : Fin P → Fin P → List Pkg
  can_send : Fin P → Fin P → Bool
  msg_queue : Fin P → Nat → Option (MsgT P)
  num_msgs : Fin P → Nat
  num_popped : Fin P → Nat
  shipIslast : Fin P → Fin P → Bool
  phase : Fin P → Fin P → PairPhase
  activeQ : Fin P → List (Fin P)
  current : Fin P → Option (Fin P)
  popIdx : Fin P → Nat
  num_done_sending : Fin P → Nat
  all_done : Fin P → Bool

/-- Modelled from the spec: `exstack2_init(buf_cnt, pkg_size)`: empty tiles, full
credit everywhere, empty ring of length `ringSize P`. -/
def exstack2_init (P B : Nat) (Pkg : Type) : X2St P Pkg :=
  { buf_cnt := B
    ringSz := ringSize P
    snd_buffer := fun _ _ => []
    rcv_buffer := fun _ _ => []
    can_send := fun _ _ => true
    msg_queue := fun _ _ => none
    num_msgs := fun _ => 0
    num_popped := fun _ => 0
    shipIslast := fun _ _ => false
    phase := fun _ _ => PairPhase.idle
    activeQ := fun _ => []
    current := fun _ => none
    popIdx := fun _ => 0
    num_done_sending := fun _ => 0
    all_done := fun _ => false }

/-- The state change of a successful `exstack2_send` from `p` to `d`: put the staged
tile into the receive tile for `p` on `d`, clear the credit bit, claim a ring slot with
fetch-and-add on `num_msgs[d]`, write the message into that slot, and zero the staged
tile. -/
def sendEff {P : Nat} {Pkg : Type} (st : X2St P Pkg) (p d : Fin P) (islast : Bool) :
    X2St P Pkg :=
  { st with
      rcv_buffer := upd2 st.rcv_buffer d p (st.snd_buffer p d)
      can_send := upd2 st.can_send p d false
      msg_queue := Function.update st.msg_queue d
        (Function.update (st.msg_queue d) (st.num_msgs d % st.ringSz)
          (some ⟨(st.snd_buffer p d).length, p, islast⟩))
      num_msgs := Function.update st.num_msgs d (st.num_msgs d + 1)
      shipIslast := upd2 st.shipIslast p d islast
      phase := upd2 st.phase p d PairPhase.inRing
      snd_buffer := upd2 st.snd_buffer p d [] }

/-- Modelled from the spec: `exstack2_send(Xstk2, pe, islast)`: atomically read
`can_send[pe]`; if it is 0 return 0 and do nothing (the caller must drain inbound items
and retry; no retry happens inside the engine), else ship and return 1. -/
def exstack2_send {P : Nat} {Pkg : Type} (st : X2St P Pkg) (p d : Fin P) (islast : Bool) :
    X2St P Pkg × Int :=
  if st.can_send p d = false then (st, 0) else (sendEff st p d islast, 1)

/-- The state change of a successful `exstack2_push`. -/
def pushEff2 {P : Nat} {Pkg : Type} (st : X2St P Pkg) (p d : Fin P) (pkg : Pkg) :
    X2St P Pkg :=
  { st with snd_buffer := upd2 st.snd_buffer p d (st.snd_buffer p d ++ [pkg]) }

/-- Modelled from the spec: staging half of `exstack2_push` (on a full tile the
implementation tries `exstack2_send`, which is the separate `send` step here). -/
def exstack2_push {P : Nat} {Pkg : Type} (st : X2St P Pkg) (p d : Fin P) (pkg : Pkg) :
    X2St P Pkg × Int :=
  if (st.snd_buffer p d).length < st.buf_cnt then (pushEff2 st p d pkg, 1) else (st, 0)

/-- The receiver of `d` observes the ring message from `s`: advance the tail
`num_popped`, append `s` to the active-buffer queue, and account an islast message into
`num_done_sending` (setting `all_done` when it reaches `P`). -/
def recvMsgEff {P : Nat} {Pkg : Type} (st : X2St P Pkg) (d s : Fin P) : X2St P Pkg :=
  { st with
      num_popped := Function.update st.num_popped d (st.num_popped d + 1)
      phase := upd2 st.phase s d PairPhase.queuedUp
      activeQ := Function.update st.activeQ d (st.activeQ d ++ [s])
      num_done_sending := Function.update st.num_done_sending d
        (st.num_done_sending d + if st.shipIslast s d then 1 else 0)
      all_done := Function.update st.all_done d
        ((st.num_done_sending d + if st.shipIslast s d then 1 else 0) == P) }

/-- Peer `d` makes the queued tile from `s` its current pop target. -/
def startPopEff {P : Nat} {Pkg : Type} (st : X2St P Pkg) (d s : Fin P) : X2St P Pkg :=
  { st with
      activeQ := Function.update st.activeQ d (st.activeQ d).tail
      current := Function.update st.current d (some s)
      phase := upd2 st.phase s d PairPhase.draining
      popIdx := Function.update st.popIdx d 0 }

/-- Peer `d` pops one item from its current tile. -/
def popItemEff {P : Nat} {Pkg : Type} (st : X2St P Pkg) (d : Fin P) : X2St P Pkg :=
  { st with popIdx := Function.update st.popIdx d (st.popIdx d + 1) }

/-- Peer `d` retires the drained tile from `s`: write the credit bit back to 1 on the
source (the only place that sets `can_send` to 1) and return the pair to IDLE. -/
def retireEff {P : Nat} {Pkg : Type} (st : X2St P Pkg) (d s : Fin P) : X2St P Pkg :=
  { st with
      can_send := upd2 st.can_send s d true
      phase := upd2 st.phase s d PairPhase.idle
      current := Function.update st.current d none }

/-- Labels of the atomic engine steps. -/
inductive X2Lbl (P : Nat) (Pkg : Type) where
  | pushL : Fin P → Pkg → Fin P → X2Lbl P Pkg
  | sendL : Fin P → Fin P → Bool → X2Lbl P Pkg
  | recvMsgL : Fin P → Fin P → X2Lbl P Pkg
  | startPopL : Fin P → Fin P → X2Lbl P Pkg
  | popItemL : Fin P → X2Lbl P Pkg
  | retireL : Fin P → Fin P → X2Lbl P Pkg

/-- The step relation of the async engine: each constructor carries the guard under
which the implementation performs the state change. -/
inductive X2StepR {P : Nat} {Pkg : Type} : X2St P Pkg → X2Lbl P Pkg → X2St P Pkg → Prop where
  | pushS : ∀ (st : X2St P Pkg) (p : Fin P) (pkg : Pkg) (d : Fin P),
      (st.snd_buffer p d).length < st.buf_cnt →
      X2StepR st (X2Lbl.pushL p pkg d) (pushEff2 st p d pkg)
  | sendS : ∀ (st : X2St P Pkg) (p d : Fin P) (islast : Bool),
      st.can_send p d = true →
      X2StepR st (X2Lbl.sendL p d islast) (sendEff st p d islast)
  | recvS : ∀ (st : X2St P Pkg) (d s : Fin P),
      st.phase s d = PairPhase.inRing →
      X2StepR st (X2Lbl.recvMsgL d s) (recvMsgEff st d s)
  | startS : ∀ (st : X2St P Pkg) (d s : Fin P) (rest : List (Fin P)),
      st.current d = none → st.activeQ d = s :: rest →
      st.phase s d = PairPhase.queuedUp →
      X2StepR st (X2Lbl.startPopL d s) (startPopEff st d s)
  | popS : ∀ (st : X2St P Pkg) (d s : Fin P),
      st.current d = some s → st.popIdx d < (st.rcv_buffer d s).length →
      X2StepR st (X2Lbl.popItemL d) (popItemEff st d)
  | retireS : ∀ (st : X2St P Pkg) (d s : Fin P),
      st.current d = some s → st.popIdx d = (st.rcv_buffer d s).length →
      st.phase s d = PairPhase.draining →
      X2StepR st (X2Lbl.retireL d s) (retireEff st d s)

/-- States reachable from `exstack2_init`. -/
inductive X2Reach (P B : Nat) (Pkg : Type) : X2St P Pkg → Prop where
  | init : X2Reach P B Pkg (exstack2_init P B Pkg)
  | step : ∀ {st : X2St P Pkg} {a : X2Lbl P Pkg} {st' : X2St P Pkg},
      X2Reach P B Pkg st → X2StepR st a st' → X2Reach P B Pkg st'

/-- A finite run of labelled steps. -/
inductive X2Run {P : Nat} {Pkg : Type} : X2St P Pkg → List (X2Lbl P Pkg) → X2St P Pkg → Prop where
  | nil : ∀ st : X2St P Pkg, X2Run st [] st
  | cons : ∀ {st : X2St P Pkg} {a : X2Lbl P Pkg} {st' : X2St P Pkg}
      {l : List (X2Lbl P Pkg)} {st'' : X2St P Pkg},
      X2StepR st a st' → X2Run st' l st'' → X2Run st (a :: l) st''

/-- Credit accuracy: the `can_send` bit is set exactly in the IDLE phase. -/
def credit_ok {P : Nat} {Pkg : Type} (st : X2St P Pkg) : Prop :=
  ∀ s d : Fin P, st.can_send s d = true ↔ st.phase s d = PairPhase.idle

/-- Ring accounting: the head of each peer's ring is its tail plus the number of
shipped-but-unobserved tiles. -/
def ring_ok {P : Nat} {Pkg : Type} (st : X2St P Pkg) : Prop :=
  ∀ d : Fin P,
    st.num_msgs d
      = st.num_popped d
        + (Finset.univ.filter fun s => st.phase s d = PairPhase.inRing).card

theorem upd2_col {P : Nat} {A : Type} (f : Fin P → Fin P → A) (a b : Fin P) (v : A)
    (x : Fin P) : upd2 f a b v x b = Function.update (fun y => f y b) a v x := by
  by_cases hx : x = a
  · subst hx
    rw [upd2_same, Function.update_same]
  · rw [upd2_ne _ _ _ _ _ _ (Or.inl hx), Function.update_noteq hx]

theorem card_filter_update_add {P : Nat} {A : Type} [DecidableEq A]
    (f : Fin P → A) (a : Fin P) (v t : A) :
    (Finset.univ.filter fun x => Function.update f a v x = t).card
        + (if f a = t then 1 else 0)
      = (Finset.univ.filter fun x => f x = t).card + (if v = t then 1 else 0) := by
  have hfun : (fun x => if Function.update f a v x = t then 1 else 0)
      = Function.update (fun x => if f x = t then 1 else 0) a (if v = t then 1 else 0) := by
    funext x
    by_cases hx : x = a
    · subst hx
      rw [Function.update_same, Function.update_same]
    · rw [Function.update_noteq hx, Function.update_noteq hx]
  rw [Finset.card_filter, Finset.card_filter, hfun]
  rw [Finset.sum_update_of_mem (Finset.mem_univ a)]
  have hsplit : (∑ x : Fin P, if f x = t then 1 else 0)
      = (if f a = t then 1 else 0) + ∑ x in Finset.univ \ {a}, if f x = t then 1 else 0 := by
    rw [Finset.sum_eq_sum_diff_singleton_add (Finset.mem_univ a)]
    omega
  omega

theorem credit_ok_step {P : Nat} {Pkg : Type} {st st' : X2St P Pkg} {a : X2Lbl P Pkg}
    (h : credit_ok st) (hstep : X2StepR st a st') : credit_ok st' := by
  cases hstep with
  | pushS p pkg d hg => exact h
  | sendS p d islast hg =>
    intro s' d'
    unfold sendEff
    dsimp only
    by_cases hsd : s' = p ∧ d' = d
    · obtain ⟨rfl, rfl⟩ := hsd
      rw [upd2_same, upd2_same]
      simp
    · rw [not_and_or] at hsd
      rw [upd2_ne _ _ _ _ _ _ hsd, upd2_ne _ _ _ _ _ _ hsd]
      exact h s' d'
  | recvS d s hg =>
    intro s' d'
    unfold recvMsgEff
    dsimp only
    by_cases hsd : s' = s ∧ d' = d
    · obtain ⟨rfl, rfl⟩ := hsd
      rw [upd2_same]
      have hcs : st.can_send s' d' = false := by
        by_cases hc : st.can_send s' d' = true
        · rw [(h s' d').mp hc] at hg
          cases hg
        · exact Bool.not_eq_true _ |>.mp hc
      rw [hcs]
      simp
    · rw [not_and_or] at hsd
      rw [upd2_ne _ _ _ _ _ _ hsd]
      exact h s' d'
  | startS d s rest hc hq hg =>
    intro s' d'
    unfold startPopEff
    dsimp only
    by_cases hsd : s' = s ∧ d' = d
    · obtain ⟨rfl, rfl⟩ := hsd
      rw [upd2_same]
      have hcs : st.can_send s' d' = false := by
        by_cases hcc : st.can_send s' d' = true
        · rw [(h s' d').mp hcc] at hg
          cases hg
        · exact Bool.not_eq_true _ |>.mp hcc
      rw [hcs]
      simp
    · rw [not_and_or] at hsd
      rw [upd2_ne _ _ _ _ _ _ hsd]
      exact h s' d'
  | popS d s hc hlt => exact h
  | retireS d s hc hidx hg =>
    intro s' d'
    unfold retireEff
    dsimp only
    by_cases hsd : s' = s ∧ d' = d
    · obtain ⟨rfl, rfl⟩ := hsd
      rw [upd2_same, upd2_same]
      simp
    · rw [not_and_or] at hsd
      rw [upd2_ne _ _ _ _ _ _ hsd, upd2_ne _ _ _ _ _ _ hsd]
      exact h s' d'

theorem filter_phase_congr {P : Nat} {Pkg : Type} (st : X2St P Pkg)
    (g : Fin P → Fin P → PairPhase) (d : Fin P)
    (hsame : ∀ x : Fin P, g x d = st.phase x d) :
    (Finset.univ.filter fun s => g s d = PairPhase.inRing).card
      = (Finset.univ.filter fun s => st.phase s d = PairPhase.inRing).card := by
  apply Finset.card_congr (fun x _ => x)
  · intro x hx
    rw [Finset.mem_filter] at hx ⊢
    rw [← hsame x]
    exact hx
  · intro x y _ _ hxy
    exact hxy
  · intro x hx
    rw [Finset.mem_filter] at hx
    refine ⟨x, ?_, rfl⟩
    rw [Finset.mem_filter, hsame x]
    exact hx

theorem ring_ok_step {P : Nat} {Pkg : Type} {st st' : X2St P Pkg} {a : X2Lbl P Pkg}
    (hcr : credit_ok st) (h : ring_ok st) (hstep : X2StepR st a st') : ring_ok st' := by
  cases hstep with
  | pushS p pkg d hg => exact h
  | sendS p d islast hg =>
    intro e
    unfold sendEff
    dsimp only
    by_cases hed : e = d
    · subst hed
      rw [Function.update_same]
      have hcard := card_filter_update_add (fun y => st.phase y e) p PairPhase.inRing
        PairPhase.inRing
      have hidle : st.phase p e = PairPhase.idle := (hcr p e).mp hg
      rw [hidle] at hcard
      rw [if_neg (show ¬(PairPhase.idle = PairPhase.inRing) by decide), if_pos rfl] at hcard
      have hcong : (Finset.univ.filter fun s => upd2 st.phase p e PairPhase.inRing s e
          = PairPhase.inRing).card
          = (Finset.univ.filter fun s =>
              Function.update (fun y => st.phase y e) p PairPhase.inRing s
                = PairPhase.inRing).card := by
        apply Finset.card_congr (fun x _ => x)
        · intro x hx
          rw [Finset.mem_filter] at hx ⊢
          rw [← upd2_col]
          exact hx
        · intro x y _ _ hxy
          exact hxy
        · intro x hx
          rw [Finset.mem_filter] at hx
          refine ⟨x, ?_, rfl⟩
          rw [Finset.mem_filter, upd2_col]
          exact hx
      rw [hcong]
      have hring := h e
      omega
    · rw [Function.update_noteq hed]
      rw [filter_phase_congr st _ e (fun x => upd2_ne _ _ _ _ _ _ (Or.inr hed))]
      exact h e
  | recvS d s hg =>
    intro e
    unfold recvMsgEff
    dsimp only
    by_cases hed : e = d
    · subst hed
      rw [Function.update_same]
      have hcard := card_filter_update_add (fun y => st.phase y e) s PairPhase.queuedUp
        PairPhase.inRing
      rw [hg] at hcard
      rw [if_pos rfl, if_neg (show ¬(PairPhase.queuedUp = PairPhase.inRing) by decide)] at hcard
      have hcong : (Finset.univ.filter fun x => upd2 st.phase s e PairPhase.queuedUp x e
          = PairPhase.inRing).card
          = (Finset.univ.filter fun x =>
              Function.update (fun y => st.phase y e) s PairPhase.queuedUp x
                = PairPhase.inRing).card := by
        apply Finset.card_congr (fun x _ => x)
        · intro x hx
          rw [Finset.mem_filter] at hx ⊢
          rw [← upd2_col]
          exact hx
        · intro x y _ _ hxy
          exact hxy
        · intro x hx
          rw [Finset.mem_filter] at hx
          refine ⟨x, ?_, rfl⟩
          rw [Finset.mem_filter, upd2_col]
          exact hx
      rw [hcong]
      have hring := h e
      omega
    · rw [Function.update_noteq hed]
      rw [filter_phase_congr st _ e (fun x => upd2_ne _ _ _ _ _ _ (Or.inr hed))]
      exact h e
  | startS d s rest hc hq hg =>
    intro e
    unfold startPopEff
    dsimp only
    by_cases hed : e = d
    · subst hed
      have hcard := card_filter_update_add (fun y => st.phase y e) s PairPhase.draining
        PairPhase.inRing
      rw [hg] at hcard
      rw [if_neg (show ¬(PairPhase.queuedUp = PairPhase.inRing) by decide),
        if_neg (show ¬(PairPhase.draining = PairPhase.inRing) by decide)] at hcard
      have hcong : (Finset.univ.filter fun x => upd2 st.phase s e PairPhase.draining x e
          = PairPhase.inRing).card
          = (Finset.univ.filter fun x =>
              Function.update (fun y => st.phase y e) s PairPhase.draining x
                = PairPhase.inRing).card := by
        apply Finset.card_congr (fun x _ => x)
        · intro x hx
          rw [Finset.mem_filter] at hx ⊢
          rw [← upd2_col]
          exact hx
        · intro x y _ _ hxy
          exact hxy
        · intro x hx
          rw [Finset.mem_filter] at hx
          refine ⟨x, ?_, rfl⟩
          rw [Finset.mem_filter, upd2_col]
          exact hx
      rw [hcong]
      have hring := h e
      omega
    · rw [filter_phase_congr st _ e (fun x => upd2_ne _ _ _ _ _ _ (Or.inr hed))]
      exact h e
  | popS d s hc hlt => exact h
  | retireS d s hc hidx hg =>
    intro e
    unfold retireEff
    dsimp only
    by_cases hed : e = d
    · subst hed
      have hcard := card_filter_update_add (fun y => st.phase y e) s PairPhase.idle
        PairPhase.inRing
      rw [hg] at hcard
      rw [if_neg (show ¬(PairPhase.draining = PairPhase.inRing) by decide),
        if_neg (show ¬(PairPhase.idle = PairPhase.inRing) by decide)] at hcard
      have hcong : (Finset.univ.filter fun x => upd2 st.phase s e PairPhase.idle x e
          = PairPhase.inRing).card
          = (Finset.univ.filter fun x =>
              Function.update (fun y => st.phase y e) s PairPhase.idle x
                = PairPhase.inRing).card := by
        apply Finset.card_congr (fun x _ => x)
        · intro x hx
          rw [Finset.mem_filter] at hx ⊢
          rw [← upd2_col]
          exact hx
        · intro x y _ _ hxy
          exact hxy
        · intro x hx
          rw [Finset.mem_filter] at hx
          refine ⟨x, ?_, rfl⟩
          rw [Finset.mem_filter, upd2_col]
          exact hx
      rw [hcong]
      have hring := h e
      omega
    · rw [filter_phase_congr st _ e (fun x => upd2_ne _ _ _ _ _ _ (Or.inr hed))]
      exact h e

theorem ringSz_step {P : Nat} {Pkg : Type} {st st' : X2St P Pkg} {a : X2Lbl P Pkg}
    (hstep : X2StepR st a st') : st'.ringSz = st.ringSz := by
  cases hstep with
  | pushS p pkg d hg => rfl
  | sendS p d islast hg => rfl
  | recvS d s hg => rfl
  | startS d s rest hc hq hg => rfl
  | popS d s hc hlt => rfl
  | retireS d s hc hidx hg => rfl

theorem x2_invariants {P B : Nat} {Pkg : Type} {st : X2St P Pkg}
    (hreach : X2Reach P B Pkg st) :
    credit_ok st ∧ ring_ok st ∧ st.ringSz = ringSize P := by
  induction hreach with
  | init =>
    refine ⟨fun s d => ?_, fun d => ?_, rfl⟩
    · simp [exstack2_init]
    · simp [exstack2_init]
  | step hr hstep ih =>
    obtain ⟨h1, h2, h3⟩ := ih
    exact ⟨credit_ok_step h1 hstep, ring_ok_step h1 h2 hstep,
      (ringSz_step hstep).trans h3⟩

/-- C7.  The message ring: its length, fixed at init, is a power of two at least `2P`,
and in every reachable state of every peer `num_msgs - num_popped ≤ ring_size`: the
fetch-and-add head never overruns the unconsumed tail by more than the ring length. -/
theorem exstack2_ring_bound (P B : Nat) (Pkg : Type) (st : X2St P Pkg)
    (hreach : X2Reach P B Pkg st) :
    st.ringSz = ringSize P ∧
    (∃ k : Nat, ringSize P = 2 ^ k) ∧
    2 * P ≤ ringSize P ∧
    ∀ d : Fin P, st.num_msgs d - st.num_popped d ≤ st.ringSz := by
  obtain ⟨hcr, hring, hsz⟩ := x2_invariants hreach
  refine ⟨hsz, ⟨Nat.clog 2 (2 * P), rfl⟩, Nat.le_pow_clog (by norm_num) _, ?_⟩
  intro d
  have h1 := hring d
  have h2 : (Finset.univ.filter fun s => st.phase s d = PairPhase.inRing).card ≤ P := by
    have h3 := Finset.card_filter_le (Finset.univ : Finset (Fin P))
      (fun s => st.phase s d = PairPhase.inRing)
    simpa using h3
  have h4 : P ≤ ringSize P := by
    have h5 : 2 * P ≤ ringSize P := Nat.le_pow_clog (by norm_num) _
    omega
  omega

/-- Witness for C7 at `P = 2`, `B = 1`: the initial state (reachable by definition). -/
theorem exstack2_ring_bound_witness :
    (exstack2_init 2 1 Nat).ringSz = ringSize 2 ∧
    (∃ k : Nat, ringSize 2 = 2 ^ k) ∧
    2 * 2 ≤ ringSize 2 ∧
    ∀ d : Fin 2, (exstack2_init 2 1 Nat).num_msgs d
      - (exstack2_init 2 1 Nat).num_popped d ≤ (exstack2_init 2 1 Nat).ringSz :=
  exstack2_ring_bound 2 1 Nat (exstack2_init 2 1 Nat) (X2Reach.init)

/-- The write a step performs on the `can_send` bit of pair `(s, d)`:
a ship writes 0 (false), a retire writes 1 (true), everything else does not touch it. -/
def canSendWrite {P : Nat} {Pkg : Type} (s d : Fin P) : X2Lbl P Pkg → Option Bool
  | X2Lbl.sendL p e _ => if p = s ∧ e = d then some false else none
  | X2Lbl.retireL e p => if p = s ∧ e = d then some true else none
  | _ => none

/-- The sequence of values written to `can_send[s][d]` along a trace. -/
def writesTo {P : Nat} {Pkg : Type} (s d : Fin P) (tr : List (X2Lbl P Pkg)) : List Bool :=
  tr.filterMap (canSendWrite s d)

/-- `noDoubleFalseFrom b ws`: starting from current bit value `b`, the write sequence
`ws` never writes 0 onto a bit that is already 0 (no two 0-writes without an
intervening 1-write). -/
def noDoubleFalseFrom (b : Bool) : List Bool → Bool
  | [] => true
  | w :: ws => (b || w) && noDoubleFalseFrom w ws

/-- No two consecutive 0-writes anywhere in the write sequence. -/
def noDoubleFalse (ws : List Bool) : Bool := noDoubleFalseFrom true ws

theorem canSend_preserved {P : Nat} {Pkg : Type} {st st' : X2St P Pkg} {a : X2Lbl P Pkg}
    (hstep : X2StepR st a st') (s d : Fin P) (hnone : canSendWrite s d a = none) :
    st'.can_send s d = st.can_send s d := by
  cases hstep with
  | pushS p pkg e hg => rfl
  | sendS p e islast hg =>
    simp only [canSendWrite] at hnone
    by_cases hpe : p = s ∧ e = d
    · rw [if_pos hpe] at hnone
      cases hnone
    · unfold sendEff
      dsimp only
      rw [not_and_or] at hpe
      apply upd2_ne
      rcases hpe with h | h
      · exact Or.inl fun hc => h hc.symm
      · exact Or.inr fun hc => h hc.symm
  | recvS e q hg => rfl
  | startS e q rest hc hq hg => rfl
  | popS e q hc hlt => rfl
  | retireS e q hc hidx hg =>
    simp only [canSendWrite] at hnone
    by_cases hpe : q = s ∧ e = d
    · rw [if_pos hpe] at hnone
      cases hnone
    · unfold retireEff
      dsimp only
      rw [not_and_or] at hpe
      apply upd2_ne
      rcases hpe with h | h
      · exact Or.inl fun hc => h hc.symm
      · exact Or.inr fun hc => h hc.symm

theorem canSend_write {P : Nat} {Pkg : Type} {st st' : X2St P Pkg} {a : X2Lbl P Pkg}
    (hstep : X2StepR st a st') (s d : Fin P) {w : Bool}
    (hw : canSendWrite s d a = some w) :
    (w = false → st.can_send s d = true) ∧ st'.can_send s d = w := by
  cases hstep with
  | pushS p pkg e hg => cases hw
  | sendS p e islast hg =>
    simp only [canSendWrite] at hw
    by_cases hpe : p = s ∧ e = d
    · rw [if_pos hpe] at hw
      obtain ⟨rfl, rfl⟩ := hpe
      injection hw with hw1
      subst hw1
      refine ⟨fun _ => hg, ?_⟩
      unfold sendEff
      dsimp only
      rw [upd2_same]
    · rw [if_neg hpe] at hw
      cases hw
  | recvS e q hg => cases hw
  | startS e q rest hc hq hg => cases hw
  | popS e q hc hlt => cases hw
  | retireS e q hc hidx hg =>
    simp only [canSendWrite] at hw
    by_cases hpe : q = s ∧ e = d
    · rw [if_pos hpe] at hw
      obtain ⟨rfl, rfl⟩ := hpe
      injection hw with hw1
      subst hw1
      constructor
      · intro hfalse
        exact absurd hfalse (by decide)
      · unfold retireEff
        dsimp only
        rw [upd2_same]
    · rw [if_neg hpe] at hw
      cases hw

theorem run_noDoubleFalseFrom {P : Nat} {Pkg : Type} (s d : Fin P) :
    ∀ (tr : List (X2Lbl P Pkg)) (st stF : X2St P Pkg), X2Run st tr stF →
      noDoubleFalseFrom (st.can_send s d) (writesTo s d tr) = true
  | [], _, _, _ => rfl
  | a :: tr, st, stF, h => by
    cases h with
    | cons hstep hrest =>
      rename_i st'
      cases hwa : canSendWrite s d a with
      | none =>
        unfold writesTo
        rw [List.filterMap_cons_none hwa]
        rw [← canSend_preserved hstep s d hwa]
        exact run_noDoubleFalseFrom s d tr st' stF hrest
      | some w =>
        unfold writesTo
        rw [List.filterMap_cons_some hwa]
        obtain ⟨hg, hpost⟩ := canSend_write hstep s d hwa
        rw [noDoubleFalseFrom, Bool.and_eq_true]
        constructor
        · cases w with
          | true => simp
          | false =>
            rw [hg rfl]
            simp
        · rw [← hpost]
          exact run_noDoubleFalseFrom s d tr st' stF hrest

/-- C6.  Async flow control.  A ship from `s` to `d` can only start while the pair is
IDLE with the credit bit set, so at most one in-flight tile per ordered pair is ever
outstanding; and along every run from the initial state the sequence of writes to
`can_send[s][d]` never writes 0 twice without an intervening write-back to 1 (the
sender writes the 0 at ship time, and only a receiver-side retire writes the 1). -/
theorem exstack2_flow_control (P B : Nat) (Pkg : Type) :
    (∀ (st st' : X2St P Pkg) (s d : Fin P) (islast : Bool),
      X2Reach P B Pkg st → X2StepR st (X2Lbl.sendL s d islast) st' →
      st.phase s d = PairPhase.idle ∧ st.can_send s d = true) ∧
    (∀ (tr : List (X2Lbl P Pkg)) (stF : X2St P Pkg) (s d : Fin P),
      X2Run (exstack2_init P B Pkg) tr stF →
      noDoubleFalse (writesTo s d tr) = true) := by
  constructor
  · intro st st' s d islast hreach hstep
    obtain ⟨hcr, _, _⟩ := x2_invariants hreach
    cases hstep with
    | sendS _ _ _ hg => exact ⟨(hcr s d).mp hg, hg⟩
  · intro tr stF s d hrun
    have h := run_noDoubleFalseFrom s d tr (exstack2_init P B Pkg) stF hrun
    exact h

/-- Witness for C6 at `P = 2`, `B = 1`: the first ship of pair `(0, 1)` leaves IDLE,
and the one-step trace consisting of that ship has an admissible write sequence. -/
theorem exstack2_flow_control_witness :
    ((exstack2_init 2 1 Nat).phase 0 1 = PairPhase.idle ∧
      (exstack2_init 2 1 Nat).can_send 0 1 = true) ∧
    noDoubleFalse (writesTo 0 1 ([X2Lbl.sendL 0 1 false] : List (X2Lbl 2 Nat))) = true :=
  ⟨(exstack2_flow_control 2 1 Nat).1 (exstack2_init 2 1 Nat)
      (sendEff (exstack2_init 2 1 Nat) 0 1 false) 0 1 false X2Reach.init
      (X2StepR.sendS (exstack2_init 2 1 Nat) 0 1 false rfl),
    (exstack2_flow_control 2 1 Nat).2 [X2Lbl.sendL 0 1 false]
      (sendEff (exstack2_init 2 1 Nat) 0 1 false) 0 1
      (X2Run.cons (X2StepR.sendS (exstack2_init 2 1 Nat) 0 1 false rfl)
        (X2Run.nil (sendEff (exstack2_init 2 1 Nat) 0 1 false)))⟩

/-- C8.  When the credit bit for `dst` is 0, `exstack2_send` returns 0 and leaves the
engine state unchanged: in particular no remote put happens and `push_cnt[dst]` (the
staged tile) keeps its value.  The function returns immediately — draining and retrying
are the caller's job, no retry happens inside the engine. -/
theorem exstack2_send_blocked (P : Nat) (Pkg : Type) (st : X2St P Pkg) (p d : Fin P)
    (islast : Bool) (h : st.can_send p d = false) :
    exstack2_send st p d islast = (st, 0) ∧
    (exstack2_send st p d islast).1.snd_buffer p d = st.snd_buffer p d ∧
    (exstack2_send st p d islast).1.rcv_buffer = st.rcv_buffer ∧
    (exstack2_send st p d islast).1.num_msgs = st.num_msgs ∧
    (exstack2_send st p d islast).1.msg_queue = st.msg_queue := by
  have heq : exstack2_send st p d islast = (st, 0) := by
    unfold exstack2_send
    rw [if_pos h]
  exact ⟨heq, by rw [heq], by rw [heq], by rw [heq], by rw [heq]⟩

/-- Witness for C8 at `P = 2`, `B = 1`: after a successful ship from 0 to 1, the credit
bit is 0 and a second send returns 0 without changing anything. -/
theorem exstack2_send_blocked_witness :
    (sendEff (exstack2_init 2 1 Nat) 0 1 false).can_send 0 1 = false ∧
    exstack2_send (sendEff (exstack2_init 2 1 Nat) 0 1 false) 0 1 true
      = (sendEff (exstack2_init 2 1 Nat) 0 1 false, 0) :=
  ⟨by decide,
    (exstack2_send_blocked 2 Nat (sendEff (exstack2_init 2 1 Nat) 0 1 false) 0 1 true
      (by decide)).1⟩
